import Mathlib

/-!
Verification of the UFOMap core spatial index (`ufo::map`) against its
specification.  The development shallowly embeds the relevant parts of
`src/ufomap/include/ufo/map/code.h` and
`src/ufomap/include/ufo/map/octree/octree_base.h`: machine 64-bit
arithmetic becomes `Nat` with explicit truncation, the Morton-code
bit-twiddling is carried over mask by mask, and the octree with its
`leaf`/`modified` index fields becomes a functional tree of 8-slot
blocks.  Payload behaviour (the mixin hooks `fill`, `updateNode`,
`isCollapsible`) and the `Key` carrier live in files that are not part
of the inspected sources and are modelled from the specification, as
marked on each such definition.
-/

namespace UfoMap

/-- Truncation to 64 bits: the behaviour of C++ `uint64_t` arithmetic. -/
def u64 (n : Nat) : Nat := n % 2 ^ 64

/-- One `code = (code | code << s) & m` stage of the split-by-3 fallback. -/
def orStage (x : Nat) (s m : Nat) : Nat := (x ||| u64 (x <<< s)) &&& m

/-- `Code::splitBy3`, portable fallback branch (code.h lines 227-234). -/
def splitBy3 (a : Nat) : Nat :=
  orStage (orStage (orStage (orStage (orStage (a &&& 0x1fffff)
    32 0x1f00000000ffff) 16 0x1f0000ff0000ff) 8 0x100f00f00f00f00f)
    4 0x10c30c30c30c30c3) 2 0x1249249249249249

/-- One `a = (a ^ (a >> s)) & m` stage of the get-3-bits fallback. -/
def xorStage (x : Nat) (s m : Nat) : Nat := (x ^^^ (x >>> s)) &&& m

/-- `Code::get3Bits`, portable fallback branch (code.h lines 242-249). -/
def get3Bits (c : Nat) : Nat :=
  xorStage (xorStage (xorStage (xorStage (xorStage (c &&& 0x1249249249249249)
    2 0x10c30c30c30c30c3) 4 0x100f00f00f00f00f) 8 0x1f0000ff0000ff)
    16 0x1f00000000ffff) 32 0x1fffff

theorem u64_testBit (x i : Nat) :
    (u64 x).testBit i = (decide (i < 64) && x.testBit i) := by
  show (x % 2 ^ 64).testBit i = (decide (i < 64) && x.testBit i)
  rw [Nat.testBit_mod_two_pow]

theorem orStage_testBit (x s m i : Nat) :
    (orStage x s m).testBit i =
      (m.testBit i && (x.testBit i ||
        (decide (i < 64) && decide (s ≤ i) && x.testBit (i - s)))) := by
  simp [orStage, Nat.testBit_and, Nat.testBit_or, u64_testBit, Nat.testBit_shiftLeft,
    Bool.and_comm, Bool.and_left_comm, Bool.and_assoc]

theorem xorStage_testBit (x s m i : Nat) :
    (xorStage x s m).testBit i =
      (m.testBit i && ((x.testBit i).xor (x.testBit (s + i)))) := by
  simp [xorStage, Nat.testBit_and, Nat.testBit_xor, Nat.testBit_shiftRight, Bool.and_comm]

/-- Bits of a 64-bit literal, from a table of its low 64 bits. -/
theorem testBit_of_table (m : Nat) (p : Nat → Bool)
    (h64 : ∀ i : Fin 64, m.testBit i.val = p i.val)
    (hm : m < 2 ^ 64) (hp : ∀ i, 64 ≤ i → p i = false) (i : Nat) :
    m.testBit i = p i := by
  rcases Nat.lt_or_ge i 64 with h | h
  · exact h64 ⟨i, h⟩
  · rw [hp i h]
    exact Nat.testBit_lt_two_pow
      (lt_of_lt_of_le hm (Nat.pow_le_pow_right (by norm_num) h))

theorem mA_testBit (i : Nat) :
    Nat.testBit 0x1fffff i = decide (i < 21) := by
  refine testBit_of_table 0x1fffff (fun i => decide (i < 21)) (by decide) (by norm_num) ?_ i
  intro j hj
  simp only [decide_eq_false_iff_not]
  omega

theorem mB_testBit (i : Nat) :
    Nat.testBit 0x1f00000000ffff i =
      decide (i < 16 ∨ (48 ≤ i ∧ i < 53)) := by
  refine testBit_of_table 0x1f00000000ffff (fun i => decide (i < 16 ∨ (48 ≤ i ∧ i < 53)))
    (by decide) (by norm_num) ?_ i
  intro j hj
  simp only [decide_eq_false_iff_not]
  omega

theorem mC_testBit (i : Nat) :
    Nat.testBit 0x1f0000ff0000ff i =
      decide (i < 8 ∨ (24 ≤ i ∧ i < 32) ∨ (48 ≤ i ∧ i < 53)) := by
  refine testBit_of_table 0x1f0000ff0000ff
    (fun i => decide (i < 8 ∨ (24 ≤ i ∧ i < 32) ∨ (48 ≤ i ∧ i < 53)))
    (by decide) (by norm_num) ?_ i
  intro j hj
  simp only [decide_eq_false_iff_not]
  omega

theorem mD_testBit (i : Nat) :
    Nat.testBit 0x100f00f00f00f00f i =
      decide ((i % 12 < 4 ∧ i < 52) ∨ i = 60) := by
  refine testBit_of_table 0x100f00f00f00f00f (fun i => decide ((i % 12 < 4 ∧ i < 52) ∨ i = 60))
    (by decide) (by norm_num) ?_ i
  intro j hj
  simp only [decide_eq_false_iff_not]
  omega

theorem mE_testBit (i : Nat) :
    Nat.testBit 0x10c30c30c30c30c3 i =
      decide (i % 6 < 2 ∧ i ≤ 60) := by
  refine testBit_of_table 0x10c30c30c30c30c3 (fun i => decide (i % 6 < 2 ∧ i ≤ 60))
    (by decide) (by norm_num) ?_ i
  intro j hj
  simp only [decide_eq_false_iff_not]
  omega

theorem mF_testBit (i : Nat) :
    Nat.testBit 0x1249249249249249 i =
      decide (i % 3 = 0 ∧ i < 63) := by
  refine testBit_of_table 0x1249249249249249 (fun i => decide (i % 3 = 0 ∧ i < 63))
    (by decide) (by norm_num) ?_ i
  intro j hj
  simp only [decide_eq_false_iff_not]
  omega

theorem splitBy3_le (a : Nat) : splitBy3 a ≤ 0x1249249249249249 :=
  Nat.and_le_right

set_option maxHeartbeats 2000000 in
theorem splitBy3_testBit (a i : Nat) :
    (splitBy3 a).testBit i =
      (decide (i % 3 = 0) && decide (i < 63) && a.testBit (i / 3)) := by
  rcases Nat.lt_or_ge i 63 with h | h
  · interval_cases i <;>
      (simp only [splitBy3, orStage_testBit, Nat.testBit_and,
         mA_testBit, mB_testBit, mC_testBit, mD_testBit, mE_testBit, mF_testBit]
       simp)
  · have h1 : splitBy3 a < 2 ^ i := by
      calc splitBy3 a ≤ 0x1249249249249249 := splitBy3_le a
        _ < 2 ^ 63 := by norm_num
        _ ≤ 2 ^ i := Nat.pow_le_pow_right (by norm_num) h
    simp [Nat.testBit_lt_two_pow h1, Nat.not_lt.mpr h]

theorem get3Bits_le (c : Nat) : get3Bits c ≤ 0x1fffff :=
  Nat.and_le_right

set_option maxHeartbeats 2000000 in
theorem get3Bits_testBit (c j : Nat) :
    (get3Bits c).testBit j = (decide (j < 21) && c.testBit (3 * j)) := by
  rcases Nat.lt_or_ge j 21 with h | h
  · interval_cases j <;>
      (simp only [get3Bits, xorStage_testBit, Nat.testBit_and,
         mA_testBit, mB_testBit, mC_testBit, mD_testBit, mE_testBit, mF_testBit]
       simp)
  · have h1 : get3Bits c < 2 ^ j := by
      calc get3Bits c ≤ 0x1fffff := get3Bits_le c
        _ < 2 ^ 21 := by norm_num
        _ ≤ 2 ^ j := Nat.pow_le_pow_right (by norm_num) h
    simp [Nat.testBit_lt_two_pow h1, Nat.not_lt.mpr h]

/-- Fallback extraction inverts fallback interleaving on 21-bit keys. -/
theorem get3Bits_splitBy3 (k : Nat) (hk : k < 2 ^ 21) :
    get3Bits (splitBy3 k) = k := by
  apply Nat.eq_of_testBit_eq
  intro j
  rw [get3Bits_testBit, splitBy3_testBit]
  rcases Nat.lt_or_ge j 21 with h | h
  · simp [Nat.mul_div_cancel_left, Nat.mul_comm 3 j, h, Nat.mul_mod_left j 3]
    omega
  · have : k.testBit j = false :=
      Nat.testBit_lt_two_pow (lt_of_lt_of_le hk (Nat.pow_le_pow_right (by norm_num) h))
    simp [this, Nat.not_lt.mpr h]

/-- Re-interleaving the extraction recovers exactly the masked bits. -/
theorem splitBy3_get3Bits (m : Nat) :
    splitBy3 (get3Bits m) = m &&& 0x1249249249249249 := by
  apply Nat.eq_of_testBit_eq
  intro i
  rw [splitBy3_testBit, get3Bits_testBit, Nat.testBit_and, mF_testBit]
  by_cases h3 : i % 3 = 0
  · rcases Nat.lt_or_ge i 63 with h63 | h63
    · have hdiv : 3 * (i / 3) = i := by omega
      have hlt : i / 3 < 21 := by omega
      simp [h3, h63, hdiv, hlt]
    · simp [Nat.not_lt.mpr h63, h3, h63]
  · simp [h3]

/-! ### The `Code` type (code.h) -/

/-- Bits of a `Nat` below a power of two vanish. -/
theorem testBit_false_of_lt_pow {n k i : Nat} (hn : n < 2 ^ k) (hk : k ≤ i) :
    n.testBit i = false :=
  Nat.testBit_lt_two_pow (lt_of_lt_of_le hn (Nat.pow_le_pow_right (by norm_num) hk))

/-- Truncation is the identity on values below `2 ^ 64`. -/
theorem u64_eq_self {n : Nat} (h : n < 2 ^ 64) : u64 n = n :=
  Nat.mod_eq_of_lt h

theorem and_31_eq_mod (n : Nat) : n &&& 31 = n % 32 := by
  have h : (31 : Nat) = 2 ^ 5 - 1 := by norm_num
  rw [h, Nat.and_pow_two_sub_one_eq_mod]

theorem and_7_eq_mod (n : Nat) : n &&& 7 = n % 8 := by
  have h : (7 : Nat) = 2 ^ 3 - 1 := by norm_num
  rw [h, Nat.and_pow_two_sub_one_eq_mod]

/-- A disjoint bitwise or is an addition: `(a <<< k) ||| b = a * 2 ^ k + b` for `b < 2 ^ k`. -/
theorem shiftLeft_or_eq_add {a b k : Nat} (hb : b < 2 ^ k) :
    (a <<< k) ||| b = a * 2 ^ k + b := by
  rw [Nat.shiftLeft_eq, Nat.mul_comm a (2 ^ k)]
  exact (Nat.mul_add_lt_is_or hb a).symm

/-- A Morton code with its depth packed into the low five bits (`ufo::map::Code`):
`code_` is the raw 64-bit value, interleaved coordinates in bits 5..63 and the
depth in bits 0..4. -/
structure Code where
  code_ : Nat
deriving DecidableEq

/-- `Code::depth()`: the low five bits. -/
def Code.depth (c : Code) : Nat := c.code_ &&& 0x1F

/-- `Code::code()`: the interleaved value, bits 5 and up. -/
def Code.code (c : Code) : Nat := c.code_ >>> 5

/-- The `Code(code_t code, depth_t depth)` constructor:
`((code >> (3 * depth)) << (3 * depth + 5)) | depth` in `uint64_t` arithmetic. -/
def Code.ofRaw (code : Nat) (depth : Nat) : Code :=
  ⟨u64 ((code >>> (3 * depth)) <<< (3 * depth + 5)) ||| depth⟩

/-- Modelled from the spec: `ufo::map::Key` (`src/ufomap/include/ufo/map/key.h` is not
among the inspected sources).  Spec section 3: a triple of unsigned integer lattice
coordinates together with the depth they are specified at; `code.h` only reads the
three components and the depth back. -/
structure Key where
  x : Nat
  y : Nat
  z : Nat
  depth : Nat
deriving DecidableEq

/-- `Code::toCode(Key)`, fallback branch:
`splitBy3(key[0]) | (splitBy3(key[1]) << 1) | (splitBy3(key[2]) << 2)`. -/
def Code.toCodeOfKey (k : Key) : Nat :=
  splitBy3 k.x ||| u64 (splitBy3 k.y <<< 1) ||| u64 (splitBy3 k.z <<< 2)

/-- The `Code(Key)` constructor: `(toCode(key) << 5) | key.depth()`. -/
def Code.ofKey (k : Key) : Code :=
  ⟨u64 (Code.toCodeOfKey k <<< 5) ||| k.depth⟩

/-- `Code::toKey(std::size_t index)`, fallback branch: `get3Bits(code_ >> (index + 5))`. -/
def Code.toKeyComp (c : Code) (idx : Nat) : Nat := get3Bits (c.code_ >>> (idx + 5))

/-- `Code::operator Key()`, fallback branch: the three extracted components and the depth. -/
def Code.toKey (c : Code) : Key :=
  ⟨c.toKeyComp 0, c.toKeyComp 1, c.toKeyComp 2, c.depth⟩

/-- `Code::index(depth_t depth)`: `(code_ >> (3 * depth + 5)) & 0x7`. -/
def Code.index (c : Code) (depth : Nat) : Nat := (c.code_ >>> (3 * depth + 5)) &&& 0x7

/-- `Code::parent(depth_t parent_depth)`: `Code(code_ >> 5, parent_depth)`. -/
def Code.parent (c : Code) (parent_depth : Nat) : Code :=
  Code.ofRaw (c.code_ >>> 5) parent_depth

/-- `Code::toDepth(depth_t depth)`: `Code(code_ >> 5, depth)`. -/
def Code.toDepth (c : Code) (depth : Nat) : Code :=
  Code.ofRaw (c.code_ >>> 5) depth

/-- `Code::child(std::size_t index)`: identity at depth 0 (the `FIXME: Throw error?`
branch), otherwise `Code((code_ >> 5) + (index << (3 * cd)), cd)` with `cd = depth - 1`. -/
def Code.child (c : Code) (index : Nat) : Code :=
  if c.depth = 0 then c
  else Code.ofRaw (u64 ((c.code_ >>> 5) + u64 (index <<< (3 * (c.depth - 1))))) (c.depth - 1)

theorem code_eq_shift_or_depth (c : Code) : c.code_ = ((c.code_ >>> 5) <<< 5) ||| c.depth := by
  rw [Code.depth, and_31_eq_mod,
    shiftLeft_or_eq_add (show c.code_ % 32 < 2 ^ 5 by omega),
    Nat.shiftRight_eq_div_pow]
  have h : (2 : Nat) ^ 5 = 32 := by norm_num
  rw [h]
  omega

/-- Shifting right twice composes. -/
theorem shiftRight_shiftRight (m a b : Nat) : m >>> a >>> b = m >>> (a + b) := by
  simp [Nat.shiftRight_eq_div_pow, Nat.div_div_eq_div_mul, Nat.pow_add]

/-- Recombining the three interleaved residue classes of a 59-bit value recovers it. -/
theorem or3_masks (m : Nat) (hm : m < 2 ^ 59) :
    (m &&& 0x1249249249249249) ||| u64 (((m >>> 1) &&& 0x1249249249249249) <<< 1)
      ||| u64 (((m >>> 2) &&& 0x1249249249249249) <<< 2) = m := by
  apply Nat.eq_of_testBit_eq
  intro t
  simp only [Nat.testBit_or, u64_testBit, Nat.testBit_shiftLeft, Nat.testBit_and,
    Nat.testBit_shiftRight, mF_testBit]
  rcases Nat.lt_or_ge t 59 with ht | ht
  · rcases t with _ | _ | t'
    · simp
    · simp
    · have e1 : 1 + (t' + 2 - 1) = t' + 2 := by omega
      have e2 : 2 + (t' + 2 - 2) = t' + 2 := by omega
      have e3 : t' + 1 + 1 = t' + 2 := rfl
      rw [e1, e2, e3]
      have ht64 : t' + 2 < 64 := by omega
      have hmod : t' % 3 = 0 ∨ t' % 3 = 1 ∨ t' % 3 = 2 := by omega
      rcases hmod with h | h | h
      · have ha : ¬ ((t' + 2) % 3 = 0) := by omega
        have hb : ¬ ((t' + 1) % 3 = 0) := by omega
        have hd : t' < 63 := by omega
        simp [ha, hb, h, hd, ht64]
      · have ha : (t' + 2) % 3 = 0 := by omega
        have hb : ¬ ((t' + 1) % 3 = 0) := by omega
        have hc : ¬ (t' % 3 = 0) := by omega
        have hd : t' + 2 < 63 := by omega
        simp [ha, hb, hc, hd, ht64]
      · have ha : ¬ ((t' + 2) % 3 = 0) := by omega
        have hb : (t' + 1) % 3 = 0 := by omega
        have hc : ¬ (t' % 3 = 0) := by omega
        have hd : t' + 1 < 63 := by omega
        simp [ha, hb, hc, hd, ht64]
  · have h0 : m.testBit t = false := testBit_false_of_lt_pow hm ht
    have e1 : 1 + (t - 1) = t := by omega
    have e2 : 2 + (t - 2) = t := by omega
    rw [e1, e2, h0]
    simp

/-- The reconstructed interleave of the three extracted key components is exactly the
stored interleaved value `code_ >> 5`. -/
theorem toCodeOfKey_toKey (c : Code) (h64 : c.code_ < 2 ^ 64) :
    Code.toCodeOfKey (Code.toKey c) = c.code_ >>> 5 := by
  have hm : c.code_ >>> 5 < 2 ^ 59 := by
    rw [Nat.shiftRight_eq_div_pow]
    omega
  have h6 : c.code_ >>> 6 = c.code_ >>> 5 >>> 1 := by rw [shiftRight_shiftRight]
  have h7 : c.code_ >>> 7 = c.code_ >>> 5 >>> 2 := by rw [shiftRight_shiftRight]
  show splitBy3 (get3Bits (c.code_ >>> (0 + 5))) |||
      u64 (splitBy3 (get3Bits (c.code_ >>> (1 + 5))) <<< 1) |||
      u64 (splitBy3 (get3Bits (c.code_ >>> (2 + 5))) <<< 2) = c.code_ >>> 5
  norm_num
  rw [h6, h7, splitBy3_get3Bits, splitBy3_get3Bits, splitBy3_get3Bits]
  exact or3_masks _ hm

/-- C2: round trip through `Key`: converting a code to its key and back reproduces it. -/
theorem C2_code_key_roundtrip (dl : Nat) (c : Code) (h64 : c.code_ < 2 ^ 64)
    ( _hdl3 : 3 ≤ dl) ( _hdl22 : dl ≤ 22) (hd : c.depth ≤ dl - 1) :
    Code.ofKey (Code.toKey c) = c := by
  have hkd : (Code.toKey c).depth = c.depth := rfl
  have hmul : (c.code_ >>> 5) <<< 5 < 2 ^ 64 := by
    rw [Nat.shiftRight_eq_div_pow, Nat.shiftLeft_eq]
    have : (2 : Nat) ^ 5 = 32 := by norm_num
    rw [this]
    omega
  show Code.mk (u64 (Code.toCodeOfKey (Code.toKey c) <<< 5) ||| (Code.toKey c).depth) = c
  rw [toCodeOfKey_toKey c h64, hkd, u64_eq_self hmul]
  cases c with
  | mk v =>
    congr 1
    exact (code_eq_shift_or_depth ⟨v⟩).symm

/-- C2 witness at a concrete code. -/
theorem C2_code_key_roundtrip_witness :
    Code.ofKey (Code.toKey (Code.ofRaw 123456 2)) = Code.ofRaw 123456 2 :=
  C2_code_key_roundtrip 5 (Code.ofRaw 123456 2) (by decide) (by norm_num) (by norm_num)
    (by decide)

/-! ### The BMI2 reference semantics and claim C7 -/

/-- Reference semantics of the BMI2 `_pdep_u64(a, 0x9249249249249249)` deposit used by
the intrinsics branch of `Code::splitBy3`: bit `j` of the source lands at position
`3 * j`, every other bit is zero. -/
def pdepSpread3 : Nat → Nat
  | 0 => 0
  | n + 1 => (n + 1) % 2 + 8 * pdepSpread3 ((n + 1) / 2)
termination_by n => n
decreasing_by
  omega

theorem pdepSpread3_testBit (k i : Nat) :
    (pdepSpread3 k).testBit i = (decide (i % 3 = 0) && k.testBit (i / 3)) := by
  induction k using Nat.strong_induction_on generalizing i with
  | _ k ih =>
    match k with
    | 0 => simp [pdepSpread3]
    | n + 1 =>
      have hb : (n + 1) % 2 < 2 := Nat.mod_lt _ (by norm_num)
      rw [pdepSpread3]
      rcases i with _ | _ | _ | i'
      · have hr : (0 : Nat) % 3 = 0 := by norm_num
        have hq : (0 : Nat) / 3 = 0 := by norm_num
        rw [hr, hq]
        simp only [decide_True, Bool.true_and, Nat.testBit_to_div_mod, decide_eq_decide]
        omega
      · have hr : ¬ ((1 : Nat) % 3 = 0) := by norm_num
        simp only [hr, decide_False, Bool.false_and, Nat.testBit_to_div_mod,
          decide_eq_false_iff_not]
        omega
      · have hr : ¬ ((2 : Nat) % 3 = 0) := by norm_num
        simp only [hr, decide_False, Bool.false_and, Nat.testBit_to_div_mod,
          decide_eq_false_iff_not]
        omega
      · have hdiv : ((n + 1) % 2 + 8 * pdepSpread3 ((n + 1) / 2)) / 2 ^ (i' + 3) =
            pdepSpread3 ((n + 1) / 2) / 2 ^ i' := by
          have hp : (2 : Nat) ^ (i' + 3) = 8 * 2 ^ i' := by
            rw [pow_add]
            ring
          rw [hp, ← Nat.div_div_eq_div_mul]
          congr 1
          omega
        rw [Nat.testBit_to_div_mod, hdiv, ← Nat.testBit_to_div_mod]
        rw [ih ((n + 1) / 2) (by omega) i']
        have e1 : (i' + 3) % 3 = i' % 3 := by omega
        have e2 : (i' + 3) / 3 = i' / 3 + 1 := by omega
        rw [e1, e2, Nat.testBit_succ]

/-- C7: on every 21-bit key the portable fallback interleave agrees bit for bit with
the BMI2 bit-deposit reference, and the fallback extraction inverts it exactly. -/
theorem C7_interleave_fallback_correct (k : Nat) (hk : k < 2 ^ 21) :
    splitBy3 k = pdepSpread3 k ∧ get3Bits (splitBy3 k) = k := by
  refine ⟨?_, get3Bits_splitBy3 k hk⟩
  apply Nat.eq_of_testBit_eq
  intro i
  rw [splitBy3_testBit, pdepSpread3_testBit]
  rcases Nat.lt_or_ge i 63 with h | h
  · simp [h]
  · have : k.testBit (i / 3) = false := testBit_false_of_lt_pow hk (by omega)
    simp [this, Nat.not_lt.mpr h]

/-- C7 witness at a concrete key. -/
theorem C7_interleave_fallback_correct_witness :
    splitBy3 1048575 = pdepSpread3 1048575 ∧ get3Bits (splitBy3 1048575) = 1048575 :=
  C7_interleave_fallback_correct 1048575 (by norm_num)

/-! ### Claim C9: `Code::child` -/

/-- C9 (amended): `Code::child` is the identity at depth 0 for every index (the
`FIXME: Throw error?` branch raises no error); at depth `d > 0`, provided the child
payload still fits the 59 interleave bits of the packed word
(`code_ >> 5 + index * 2 ^ (3 * (d - 1)) < 2 ^ 59`), it returns the code one level
deeper carrying the given slot index, whose parent at depth `d` is the original code. -/
theorem C9_code_child_amended :
    (∀ (c : Code) (i : Nat), c.depth = 0 → c.child i = c) ∧
    (∀ (c : Code) (i : Nat), c.code_ < 2 ^ 64 → 1 ≤ c.depth → c.depth ≤ 21 → i ≤ 7 →
      (c.code_ >>> 5) % 2 ^ (3 * c.depth) = 0 →
      (c.code_ >>> 5) + i * 2 ^ (3 * (c.depth - 1)) < 2 ^ 59 →
      (c.child i).depth = c.depth - 1 ∧ (c.child i).index (c.depth - 1) = i ∧
        (c.child i).parent c.depth = c) := by
  constructor
  · intro c i h0
    unfold Code.child
    rw [if_pos h0]
  · intro c i h64 hd1 hd21 hi hnorm hfit
    have hd0 : ¬ (c.depth = 0) := by omega
    have hKpos : 0 < 2 ^ (3 * (c.depth - 1)) := Nat.pos_pow_of_pos _ (by norm_num)
    have h8K : (2 : Nat) ^ (3 * c.depth) = 8 * 2 ^ (3 * (c.depth - 1)) := by
      rw [show 3 * c.depth = 3 * (c.depth - 1) + 3 by omega, pow_add]
      ring
    have hdvd2 : (8 * 2 ^ (3 * (c.depth - 1))) ∣ c.code_ >>> 5 := by
      rw [← h8K]
      exact Nat.dvd_of_mod_eq_zero hnorm
    obtain ⟨r, hrr⟩ := hdvd2
    have hq : c.code_ >>> 5 = 2 ^ (3 * (c.depth - 1)) * (8 * r) := by
      rw [hrr]
      ring
    have hiK64 : i * 2 ^ (3 * (c.depth - 1)) < 2 ^ 64 := by omega
    have hchild : c.child i =
        Code.ofRaw (c.code_ >>> 5 + i * 2 ^ (3 * (c.depth - 1))) (c.depth - 1) := by
      unfold Code.child
      rw [if_neg hd0, Nat.shiftLeft_eq, u64_eq_self hiK64, u64_eq_self (by omega)]
    have hdiv : (c.code_ >>> 5 + i * 2 ^ (3 * (c.depth - 1))) >>> (3 * (c.depth - 1)) =
        8 * r + i := by
      rw [Nat.shiftRight_eq_div_pow, hq,
        show 2 ^ (3 * (c.depth - 1)) * (8 * r) + i * 2 ^ (3 * (c.depth - 1)) =
          2 ^ (3 * (c.depth - 1)) * (8 * r + i) from by ring,
        Nat.mul_div_cancel_left _ hKpos]
    have hpow : (2 : Nat) ^ (3 * (c.depth - 1) + 5) = 2 ^ (3 * (c.depth - 1)) * 32 := by
      rw [pow_add]
      norm_num
    have hval : (8 * r + i) <<< (3 * (c.depth - 1) + 5) =
        (c.code_ >>> 5 + i * 2 ^ (3 * (c.depth - 1))) * 32 := by
      rw [Nat.shiftLeft_eq, hpow, hq]
      ring
    have hv64 : (c.code_ >>> 5 + i * 2 ^ (3 * (c.depth - 1))) * 32 < 2 ^ 64 := by omega
    have hsl5 : (c.code_ >>> 5 + i * 2 ^ (3 * (c.depth - 1))) * 32 =
        (c.code_ >>> 5 + i * 2 ^ (3 * (c.depth - 1))) <<< 5 := by
      rw [Nat.shiftLeft_eq]
    have hcode : (c.child i).code_ =
        (c.code_ >>> 5 + i * 2 ^ (3 * (c.depth - 1))) * 32 + (c.depth - 1) := by
      rw [hchild]
      unfold Code.ofRaw
      rw [hdiv, hval, u64_eq_self hv64, hsl5,
        shiftLeft_or_eq_add (show c.depth - 1 < 2 ^ 5 from by omega)]
      norm_num
      exact hsl5
    refine ⟨?_, ?_, ?_⟩
    · rw [Code.depth, hcode, and_31_eq_mod]
      omega
    · rw [Code.index, hcode]
      have h32K : (32 : Nat) ≤ 2 ^ (3 * (c.depth - 1)) * 32 :=
        Nat.le_mul_of_pos_left _ hKpos
      have hsh : ((c.code_ >>> 5 + i * 2 ^ (3 * (c.depth - 1))) * 32 + (c.depth - 1)) >>>
          (3 * (c.depth - 1) + 5) = 8 * r + i := by
        rw [Nat.shiftRight_eq_div_pow, hpow, hq,
          show (2 ^ (3 * (c.depth - 1)) * (8 * r) + i * 2 ^ (3 * (c.depth - 1))) * 32 +
              (c.depth - 1) =
            (2 ^ (3 * (c.depth - 1)) * 32) * (8 * r + i) + (c.depth - 1) from by ring,
          Nat.mul_add_div (by positivity), Nat.div_eq_of_lt (by omega)]
        omega
      rw [hsh, and_7_eq_mod]
      omega
    · rw [Code.parent, hcode]
      have hsh5 : ((c.code_ >>> 5 + i * 2 ^ (3 * (c.depth - 1))) * 32 + (c.depth - 1)) >>>
          5 = c.code_ >>> 5 + i * 2 ^ (3 * (c.depth - 1)) := by
        rw [Nat.shiftRight_eq_div_pow]
        norm_num
        omega
      rw [hsh5]
      unfold Code.ofRaw
      have hiK8K : i * 2 ^ (3 * (c.depth - 1)) < 8 * 2 ^ (3 * (c.depth - 1)) := by
        calc i * 2 ^ (3 * (c.depth - 1)) ≤ 7 * 2 ^ (3 * (c.depth - 1)) :=
              Nat.mul_le_mul_right _ hi
          _ < 8 * 2 ^ (3 * (c.depth - 1)) := by omega
      have hsh3d : (c.code_ >>> 5 + i * 2 ^ (3 * (c.depth - 1))) >>> (3 * c.depth) = r := by
        rw [Nat.shiftRight_eq_div_pow, h8K, hq,
          show 2 ^ (3 * (c.depth - 1)) * (8 * r) + i * 2 ^ (3 * (c.depth - 1)) =
            (8 * 2 ^ (3 * (c.depth - 1))) * r + i * 2 ^ (3 * (c.depth - 1)) from by ring,
          Nat.mul_add_div (by positivity), Nat.div_eq_of_lt hiK8K]
        omega
      rw [hsh3d]
      have hup : r <<< (3 * c.depth + 5) = (c.code_ >>> 5) * 32 := by
        rw [Nat.shiftLeft_eq, pow_add, h8K, hq]
        ring
      rw [hup]
      have hcc64 : (c.code_ >>> 5) * 32 < 2 ^ 64 := by omega
      rw [u64_eq_self hcc64,
        show (c.code_ >>> 5) * 32 = (c.code_ >>> 5) <<< 5 from by
          rw [Nat.shiftLeft_eq]]
      cases c with
      | mk v =>
        congr 1
        exact (code_eq_shift_or_depth ⟨v⟩).symm

/-- C9 witness at concrete codes: identity at depth 0 and a correct child at depth 1. -/
theorem C9_code_child_amended_witness :
    (Code.ofRaw 0 0).child 5 = Code.ofRaw 0 0 ∧
      (((Code.ofRaw 40 1).child 3).depth = 0 ∧
        ((Code.ofRaw 40 1).child 3).index 0 = 3 ∧
        ((Code.ofRaw 40 1).child 3).parent 1 = Code.ofRaw 40 1) :=
  ⟨C9_code_child_amended.1 (Code.ofRaw 0 0) 5 (by decide),
    C9_code_child_amended.2 (Code.ofRaw 40 1) 3 (by decide) (by decide) (by decide)
      (by decide) (by decide) (by decide)⟩

/-- C9 counterexample: at depth 20 the child payload overflows the 59 interleave bits
and is truncated away, so `child(4)` does not carry slot index 4.  The code is built
through the public `Code(Key)` constructor exactly as the C++ would. -/
theorem C9_code_child_counterexample :
    (Code.ofKey ⟨2 ^ 20, 0, 0, 20⟩).depth = 20 ∧
      ¬ (((Code.ofKey ⟨2 ^ 20, 0, 0, 20⟩).child 4).index 19 = 4) := by
  decide

/-! ### Claim C8: `siblingChecked` -/

/-- Error kinds thrown by the checked sibling accessor. -/
inductive SiblingError where
  | noSiblings
  | indexOutOfRange
deriving DecidableEq

/-- `OctreeBase::siblingChecked` (octree_base.h lines 1370-1379): the bounds-checked
sibling accessor.  `isRootNode` is `isRoot(node)`, `sib` stands for the unchecked
`sibling(node, sibling_index)`; `throw std::out_of_range` becomes `Except.error`. -/
def siblingChecked {beta : Type} (isRootNode : Bool) (sibling_index : Nat)
    (sib : Nat → beta) : Except SiblingError beta :=
  if ¬ isRootNode then Except.error SiblingError.noSiblings
  else if 7 < sibling_index then Except.error SiblingError.indexOutOfRange
  else Except.ok (sib sibling_index)

/-- C8 divergence: `siblingChecked` throws `"Node has no siblings"` for every
non-root node even with an in-range index, and computes a sibling for the root,
which has none: the guard `!isRoot(node)` is inverted. -/
theorem C8_sibling_checked_inverted :
    (∀ (beta : Type) (sib : Nat → beta),
        siblingChecked false 0 sib = Except.error SiblingError.noSiblings) ∧
    (∀ (beta : Type) (sib : Nat → beta),
        siblingChecked true 0 sib = Except.ok (sib 0)) :=
  ⟨fun _ _ => rfl, fun _ _ => rfl⟩

/-! ### The octree block model (octree_base.h) -/

/-- Payload hooks supplied by the payload mixins.
Modelled from the spec: `octree_node.h` and the mixin implementations of `fill`,
`updateNode` and `isCollapsible` are not among the inspected sources.  Spec
section 6 fixes the contract: `fill` seeds a fresh child from its parent slot,
`updateNode` computes the parent aggregate from the eight children (an opaque
reduction, spec section 4.4), and `isCollapsible` is the payload equality used
for pruning. -/
structure Hooks (α : Type) where
  fillH : α → α
  updateH : (Fin 8 → α) → α
  collH : (Fin 8 → α) → Bool

/-- One block of eight sibling slots (`InnerNode`): per-slot payload (the `LeafNode`
data), the `modified` and `leaf` index fields, and the single child-block pointer
shared by the eight slots (`leaf_children` / `inner_children`); `none` models a null
pointer.  Blocks whose slots are at depth 0 never use `leaf` or `children`. -/
inductive NodeB (α : Type) : Type where
  | node (payload : Fin 8 → α) (modified : Fin 8 → Bool) (leaf : Fin 8 → Bool)
      (children : Option (Fin 8 → NodeB α)) : NodeB α

def NodeB.payload {α : Type} : NodeB α → Fin 8 → α
  | node p _ _ _ => p

def NodeB.modified {α : Type} : NodeB α → Fin 8 → Bool
  | node _ m _ _ => m

def NodeB.leaf {α : Type} : NodeB α → Fin 8 → Bool
  | node _ _ l _ => l

def NodeB.children {α : Type} : NodeB α → Option (Fin 8 → NodeB α)
  | node _ _ _ ch => ch

def NodeB.withPayload {α : Type} : NodeB α → (Fin 8 → α) → NodeB α
  | node _ m l ch, p => node p m l ch

def NodeB.withModified {α : Type} : NodeB α → (Fin 8 → Bool) → NodeB α
  | node p _ l ch, m => node p m l ch

def NodeB.withLeaf {α : Type} : NodeB α → (Fin 8 → Bool) → NodeB α
  | node p m _ ch, l => node p m l ch

def NodeB.withChildren {α : Type} : NodeB α → Option (Fin 8 → NodeB α) → NodeB α
  | node p m l _, ch => node p m l ch

/-- Pointwise update of one slot of an 8-slot table. -/
def upd {β : Type} (f : Fin 8 → β) (i : Fin 8) (v : β) : Fin 8 → β :=
  fun j => if j = i then v else f j

/-- A default-constructed block: default payload, nothing modified, all slots
leaves, null child pointer.  Modelled from the spec for the payload and bits
(`octree_node.h` is not under src/); it is what `initRoot` establishes for the
root (`leaf.set()`, `modified.reset()`) and what fresh slots must satisfy
(spec section 3: a node is never allocated unless its parent cleared `leaf`). -/
def defaultNode {α : Type} (d0 : α) : NodeB α :=
  NodeB.node (fun _ => d0) (fun _ => false) (fun _ => true) none

/-- `leafChild(node, i)` / `innerChild(node, i)`: the child block of slot `i`.
The `none` fallback returns a default block where the C++ dereferences a null
pointer (undefined behaviour); `propagateModified`'s entry can reach that
dereference on a reachable state (a modified leaf root slot, see
`propEntryNullDeref` and `C3_propagate_entry_null_deref`), so the fallback is a
totalization of a crash, not behaviour of the program. -/
def childAt {α : Type} (d0 : α) (n : NodeB α) (i : Fin 8) : NodeB α :=
  match n.children with
  | some blk => blk i
  | none => defaultNode d0

/-- Replace the child block of slot `i` (in-place mutation of `*children[i]`).
The `none` case drops the write where the C++ write would go through a null
block pointer (undefined behaviour) - again a totalization of a crash. -/
def setChildAt {α : Type} (n : NodeB α) (i : Fin 8) (ch : NodeB α) : NodeB α :=
  match n.children with
  | some blk => n.withChildren (some (upd blk i ch))
  | none => n

/-- `child.fill(parent, i)`.  Modelled from the spec (octree_node.h is not under
src/): the eight fresh slots are seeded from the parent's slot state - payload
through the `fill` hook, the modified bit copied, all slots leaves
(spec sections 4.3 and 6). -/
def fillNode {α : Type} (H : Hooks α) (parent : NodeB α) (i : Fin 8) : NodeB α :=
  NodeB.node (fun _ => H.fillH (parent.payload i)) (fun _ => parent.modified i)
    (fun _ => true) none

/-- `createLeafChildren(node, index)` / `createInnerChildren(node, index, depth)`
(octree_base.h lines 4271-4296 and 4339-4363), without locking and node counters:
if slot `index` is a leaf, allocate the shared child block when null, fill the
child of that slot from the parent, and clear the slot's leaf bit. -/
def createChildren {α : Type} (H : Hooks α) (d0 : α) (n : NodeB α) (i : Fin 8) :
    NodeB α :=
  if n.leaf i then
    let blk := match n.children with
      | some blk => blk
      | none => fun _ => defaultNode d0
    (n.withChildren (some (upd blk i (fillNode H n i)))).withLeaf (upd n.leaf i false)
  else n

/-- All eight bits set (`IndexField::all()`). -/
def allb (g : Fin 8 → Bool) : Bool := decide (∀ i, g i = true)

/-- Some bit set (`IndexField::any()`). -/
def anyb (g : Fin 8 → Bool) : Bool := decide (∃ i, g i = true)

/-- `applyAllRecurs(node, indices, depth, f, f2)` (octree_base.h lines 3444-3475):
apply `f2` to whole all-leaf child blocks, `f` to individual leaf slots, recurse
below non-leaf slots, and set all modified bits of every touched child block. -/
def applyAllRecurs {α : Type} (H : Hooks α) (d0 : α) (f : α → α)
    (f2 : (Fin 8 → α) → Fin 8 → α) : Nat → (Fin 8 → Bool) → NodeB α → NodeB α
  | 0, _, n => n
  | 1, indices, n =>
      n.withChildren (some (fun i =>
        if indices i then
          ((childAt d0 n i).withPayload (f2 (childAt d0 n i).payload)).withModified
            (fun _ => true)
        else childAt d0 n i))
  | d + 2, indices, n =>
      n.withChildren (some (fun i =>
        if indices i then
          let ch := childAt d0 n i
          let ch1 :=
            if allb ch.leaf then ch.withPayload (f2 ch.payload)
            else
              applyAllRecurs H d0 f f2 (d + 1) (fun j => ! ch.leaf j)
                (ch.withPayload (fun j => if ch.leaf j then f (ch.payload j)
                  else ch.payload j))
          ch1.withModified (fun _ => true)
        else childAt d0 n i))

/-- `apply(InnerNode& node, depth_t depth, Code code, f, f2)` (octree_base.h lines
3407-3439), with the code abstracted to its slot-index function `idx` and its depth
`cdepth`: descend to the target creating children and marking the path modified,
then apply `f`/`f2` at the target. -/
def applyA {α : Type} (H : Hooks α) (d0 : α) (f : α → α)
    (f2 : (Fin 8 → α) → Fin 8 → α) (idx : Nat → Fin 8) (cdepth : Nat) :
    Nat → NodeB α → NodeB α
  | 0, n => n
  | d + 1, n =>
    let index := idx (d + 1)
    if max cdepth 1 = d + 1 then
      if cdepth = 0 then
        let n1 := createChildren H d0 n index
        let n2 := n1.withModified (upd n1.modified index true)
        let ci := idx 0
        let ch := childAt d0 n2 index
        let ch1 := ch.withPayload (upd ch.payload ci (f (ch.payload ci)))
        setChildAt n2 index (ch1.withModified (upd ch1.modified ci true))
      else if n.leaf index then
        (n.withPayload (upd n.payload index (f (n.payload index)))).withModified
          (upd n.modified index true)
      else
        let n1 := applyAllRecurs H d0 f f2 (d + 1) (fun j => j == index) n
        n1.withModified (upd n1.modified index true)
    else
      let n1 := createChildren H d0 n index
      let n2 := n1.withModified (upd n1.modified index true)
      setChildAt n2 index (applyA H d0 f f2 idx cdepth d (childAt d0 n2 index))

/-- `LeafNode::isCollapsible()` / `InnerNode::isCollapsible()` for the child block of
slot `i`.  Modelled from the spec (octree_node.h is not under src/): a block is
collapsible when its payloads satisfy the payload equality and - for inner blocks -
every slot is itself a leaf (spec section 4.4). -/
def collapsibleSlot {α : Type} (H : Hooks α) (d0 : α) (depth : Nat) (n : NodeB α)
    (i : Fin 8) : Bool :=
  if depth = 1 then H.collH (childAt d0 n i).payload
  else allb (childAt d0 n i).leaf && H.collH (childAt d0 n i).payload

/-- The `if (node.leaf.all()) deallocate...Children(node, ...)` tail of the delete
functions: drop the block when every slot is a leaf and pruning is on, else cache it. -/
def deallocIfAll {α : Type} (autoP : Bool) (n : NodeB α) : NodeB α :=
  if allb n.leaf then (if autoP then n.withChildren none else n) else n

/-- `deleteLeafChildren(node, indices, manual)` / `deleteChildren(node, indices,
depth, manual)` (octree_base.h lines 4428-4456 and 4489-4523) with
`manual_pruning = false`: raise the leaf bits, clear the deleted child entries,
and - when all slots became leaves - deallocate the block if `automatic_prune`
is set, else cache it.  The recursive grandchild deletion of the C++ frees
memory only; its net effect on the cleared entry is `clear()`. -/
def deleteChildrenB {α : Type} (d0 : α) (autoP : Bool) (n : NodeB α)
    (indices : Fin 8 → Bool) : NodeB α :=
  if anyb (fun i => indices i && ! n.leaf i) = false then n
  else
    deallocIfAll autoP
      ((n.withLeaf (fun i => n.leaf i || indices i)).withChildren
        (match n.children with
        | some blk =>
            some (fun i => if indices i && ! n.leaf i then defaultNode d0 else blk i)
        | none => none))

/-- `prune(node, indices, depth)` (octree_base.h lines 4132-4139). -/
def pruneB {α : Type} (H : Hooks α) (d0 : α) (autoP : Bool) (n : NodeB α)
    (indices : Fin 8 → Bool) (depth : Nat) : NodeB α :=
  if anyb (fun i => indices i && collapsibleSlot H d0 depth n i) then
    deleteChildrenB d0 autoP n (fun i => indices i && collapsibleSlot H d0 depth n i)
  else n

/-- `updateNode(node, indices, depth)` (octree_base.h lines 3996-4027): recompute
the aggregate of each indexed slot from its child block through the payload hook,
then prune. -/
def updateNodeB {α : Type} (H : Hooks α) (d0 : α) (autoP : Bool) (n : NodeB α)
    (indices : Fin 8 → Bool) (depth : Nat) : NodeB α :=
  pruneB H d0 autoP
    (n.withPayload (fun i =>
      if indices i then H.updateH (childAt d0 n i).payload else n.payload i))
    indices depth

/-- `propagateModifiedRecurs<KeepModified>(node, depth, max_depth)` (octree_base.h
lines 4065-4102). -/
def propModN {α : Type} (H : Hooks α) (d0 : α) (autoP : Bool) (keep : Bool)
    (maxD : Nat) : Nat → NodeB α → NodeB α
  | 0, n => n
  | d + 1, n =>
    let mp := fun i => n.modified i && ! n.leaf i
    if anyb mp = false then
      if keep = false ∧ d + 1 ≤ maxD then n.withModified (fun _ => false) else n
    else
      let n1 :=
        if d = 0 then
          (if keep then n else n.withChildren (match n.children with
            | some blk => some (fun i =>
                if mp i then (blk i).withModified (fun _ => false) else blk i)
            | none => none))
        else
          n.withChildren (match n.children with
            | some blk => some (fun i =>
                if mp i then propModN H d0 autoP keep maxD d (blk i) else blk i)
            | none => none)
      if d + 1 ≤ maxD then
        let n2 := updateNodeB H d0 autoP n1 mp (d + 1)
        if keep then n2 else n2.withModified (fun _ => false)
      else n1

/-- `propagateModified(InnerNode& node, index_t index, depth_t depth, keep_modified,
max_depth)` (octree_base.h lines 4036-4063).  The entry guards only on
`modified[index]` (line 4039) - it lacks the `& ~leaf` filter that
`propagateModifiedRecurs` applies (line 4068) - so when the slot is a modified
leaf with a null child block the C++ dereferences null in `innerChild` /
`leafChild` (lines 4045, 4049-4051) and `updateNode` (line 4058).  Through
`childAt` / `setChildAt` this model continues that case benignly (reads a
default block, drops the write): see `propEntryNullDeref` for the explicit
dereference condition and `C3_propagate_entry_null_deref` for a reachable state
meeting it. -/
def propModEntry {α : Type} (H : Hooks α) (d0 : α) (autoP : Bool) (n : NodeB α)
    (index : Fin 8) (depth : Nat) (keep : Bool) (maxD : Nat) : NodeB α :=
  if n.modified index = false then n
  else
    let n1 :=
      if depth = 1 then
        (if keep then n
         else setChildAt n index ((childAt d0 n index).withModified (fun _ => false)))
      else setChildAt n index (propModN H d0 autoP keep maxD (depth - 1)
        (childAt d0 n index))
    if depth ≤ maxD then
      let n2 := updateNodeB H d0 autoP n1 (fun j => j == index) depth
      if keep then n2 else n2.withModified (upd n2.modified index false)
    else n1

/-- The public `propagateModified(keep_modified, max_depth)` (octree_base.h lines
834-837): `propagateModified(root(), rootIndex(), rootDepth(), keep, max_depth)`
with `rootIndex() = 0` and `rootDepth() = depth_levels - 1`. -/
def propagateRoot {α : Type} (H : Hooks α) (d0 : α) (autoP : Bool) (dl : Nat)
    (keep : Bool) (maxD : Nat) (T : NodeB α) : NodeB α :=
  propModEntry H d0 autoP T 0 (dl - 1) keep maxD

/-- `Code::index(depth)` always lies in `0..7`. -/
def codeIdxF (c : Code) (d : Nat) : Fin 8 :=
  ⟨c.index d, by
    have h : c.index d ≤ 7 := Nat.and_le_right
    omega⟩

/-- `apply(Code code, f, f2, propagate)` (octree_base.h lines 3384-3402): the
out-of-depth guard returns a default `Node()` - modelled as `none` - touching
nothing; otherwise descend-and-apply from the root, then optionally propagate
with the default arguments (`keep_modified = false`,
`max_depth = maxDepthLevels() = 22`), and return a node handle at the target
depth. -/
def applyCode {α : Type} (H : Hooks α) (d0 : α) (autoP : Bool) (dl : Nat) (c : Code)
    (f : α → α) (f2 : (Fin 8 → α) → Fin 8 → α) (prop : Bool) (T : NodeB α) :
    NodeB α × Option Nat :=
  if dl - 1 < c.depth then (T, none)
  else
    let T1 := applyA H d0 f f2 (codeIdxF c) c.depth (dl - 1) T
    (if prop then propagateRoot H d0 autoP dl false 22 T1 else T1, some c.depth)

/-- `leafNodeAndDepth(Code)` (octree_base.h lines 3670-3702), also the body of
`operator()(Code)` (lines 1272-1276) and `leafNode(Code)` (lines 3591-3604):
descend from the root following the code's slot indices, stopping at the code's
depth or at the first leaf slot; at a fully descended depth-0 code return the
leaf child block. -/
def findB {α : Type} (d0 : α) (idx : Nat → Fin 8) (cdepth : Nat) :
    Nat → NodeB α → NodeB α × Nat
  | 0, n => (n, 0)
  | d + 1, n =>
    let index := idx (d + 1)
    if max cdepth 1 = d + 1 then
      if cdepth = 0 ∧ n.leaf index = false then (childAt d0 n index, 0) else (n, d + 1)
    else if n.leaf index then (n, d + 1)
    else findB d0 idx cdepth d (childAt d0 n index)

/-- `isModified(Code)` (octree_base.h lines 547-551): the modified bit of the slot
where the lookup stops. -/
def isModifiedCode {α : Type} (d0 : α) (dl : Nat) (c : Code) (T : NodeB α) : Bool :=
  let r := findB d0 (codeIdxF c) c.depth (dl - 1) T
  r.1.modified (codeIdxF c r.2)

/-- Map states reachable through the modelled public write interface: the freshly
constructed root-only map (`initRoot`), `apply` on an in-bounds code (with or
without propagation), and `propagateModified` with any arguments.  (`resetModified`
is excluded: the spec documents it as unsafe to mix with aggregate-dependent
queries.) -/
inductive Reachable {α : Type} (H : Hooks α) (d0 : α) (autoP : Bool) (dl : Nat) :
    NodeB α → Prop where
  | fresh : Reachable H d0 autoP dl (defaultNode d0)
  | applyStep (T : NodeB α) (c : Code) (f : α → α) (f2 : (Fin 8 → α) → Fin 8 → α)
      (prop : Bool) : Reachable H d0 autoP dl T → c.code_ < 2 ^ (3 * (dl - 1) + 5) →
      Reachable H d0 autoP dl (applyCode H d0 autoP dl c f f2 prop T).1
  | propStep (T : NodeB α) (keep : Bool) (maxD : Nat) : Reachable H d0 autoP dl T →
      Reachable H d0 autoP dl (propagateRoot H d0 autoP dl keep maxD T)

/-- The block reached by following a path of child indices through non-leaf slots;
`none` when the path leaves the allocated tree. -/
def blockAt {α : Type} : NodeB α → List (Fin 8) → Option (NodeB α)
  | n, [] => some n
  | n, i :: p =>
    match n.children with
    | none => none
    | some blk => if n.leaf i then none else blockAt (blk i) p

/-! ### Claim C1: out-of-depth `apply` -/

/-- C1: for every code whose depth exceeds `rootDepth()`, `apply` returns the
default `Node()` (modelled `none`) and performs no write: the tree is returned
unchanged and the target functions are never invoked (the result does not depend
on `f`, `f2` or `propagate`). -/
theorem C1_apply_out_of_depth {α : Type} (H : Hooks α) (d0 : α) (autoP : Bool)
    (dl : Nat) (c : Code) (f : α → α) (f2 : (Fin 8 → α) → Fin 8 → α) (prop : Bool)
    (T : NodeB α) (h : dl - 1 < c.depth) :
    applyCode H d0 autoP dl c f f2 prop T = (T, none) := by
  unfold applyCode
  rw [if_pos h]

/-- A concrete payload instantiation for the closed examples: `Nat` payloads, the
aggregate is the first child's payload, no block is ever collapsible. -/
def natHooks : Hooks Nat := ⟨id, fun p => p 0, fun _ => false⟩

/-- C1 witness: a depth-5 code on a 3-level map. -/
theorem C1_apply_out_of_depth_witness :
    applyCode natHooks 0 true 3 (Code.ofRaw 0 5) (fun _ => 7) (fun p => p) false
      (defaultNode 0) = (defaultNode 0, none) :=
  C1_apply_out_of_depth natHooks 0 true 3 (Code.ofRaw 0 5) (fun _ => 7) (fun p => p)
    false (defaultNode 0) (by decide)

/-- Modelled from the spec: the `OutOfBounds` failure kind of spec section 7
(the code under `src/` defines no error type for `apply`). -/
inductive ErrKind where
  | outOfBounds
deriving DecidableEq

/-- Modelled from the spec: "Out-of-depth target (`code.depth > rootDepth`)
fails with `OutOfBounds`", with all bounds errors returned to the caller
(spec sections 4.4 and 7). -/
def applySpecOutcome (dl : Nat) (c : Code) : Except ErrKind Unit :=
  if dl - 1 < c.depth then Except.error ErrKind.outOfBounds else Except.ok ()

/-- C1 counterexample: where the spec requires an `OutOfBounds` failure to reach
the caller, the code returns normally - the default null `Node()` (modelled
`none`) with the tree untouched - even when propagation was requested. -/
theorem C1_apply_out_of_depth_counterexample :
    applySpecOutcome 3 (Code.ofRaw 0 5) = Except.error ErrKind.outOfBounds ∧
      applyCode natHooks 0 true 3 (Code.ofRaw 0 5) (fun _ => 7) (fun p => p) true
        (defaultNode 0) = (defaultNode 0, none) := by
  constructor
  · unfold applySpecOutcome
    rw [if_pos (by decide)]
  · unfold applyCode
    rw [if_pos (by decide)]

/-! ### Projection algebra for the block model -/

@[simp] theorem payload_withPayload {α : Type} (n : NodeB α) (p : Fin 8 → α) :
    (n.withPayload p).payload = p := by cases n; rfl

@[simp] theorem modified_withPayload {α : Type} (n : NodeB α) (p : Fin 8 → α) :
    (n.withPayload p).modified = n.modified := by cases n; rfl

@[simp] theorem leaf_withPayload {α : Type} (n : NodeB α) (p : Fin 8 → α) :
    (n.withPayload p).leaf = n.leaf := by cases n; rfl

@[simp] theorem children_withPayload {α : Type} (n : NodeB α) (p : Fin 8 → α) :
    (n.withPayload p).children = n.children := by cases n; rfl

@[simp] theorem payload_withModified {α : Type} (n : NodeB α) (m : Fin 8 → Bool) :
    (n.withModified m).payload = n.payload := by cases n; rfl

@[simp] theorem modified_withModified {α : Type} (n : NodeB α) (m : Fin 8 → Bool) :
    (n.withModified m).modified = m := by cases n; rfl

@[simp] theorem leaf_withModified {α : Type} (n : NodeB α) (m : Fin 8 → Bool) :
    (n.withModified m).leaf = n.leaf := by cases n; rfl

@[simp] theorem children_withModified {α : Type} (n : NodeB α) (m : Fin 8 → Bool) :
    (n.withModified m).children = n.children := by cases n; rfl

@[simp] theorem payload_withLeaf {α : Type} (n : NodeB α) (l : Fin 8 → Bool) :
    (n.withLeaf l).payload = n.payload := by cases n; rfl

@[simp] theorem modified_withLeaf {α : Type} (n : NodeB α) (l : Fin 8 → Bool) :
    (n.withLeaf l).modified = n.modified := by cases n; rfl

@[simp] theorem leaf_withLeaf {α : Type} (n : NodeB α) (l : Fin 8 → Bool) :
    (n.withLeaf l).leaf = l := by cases n; rfl

@[simp] theorem children_withLeaf {α : Type} (n : NodeB α) (l : Fin 8 → Bool) :
    (n.withLeaf l).children = n.children := by cases n; rfl

@[simp] theorem payload_withChildren {α : Type} (n : NodeB α)
    (ch : Option (Fin 8 → NodeB α)) : (n.withChildren ch).payload = n.payload := by
  cases n; rfl

@[simp] theorem modified_withChildren {α : Type} (n : NodeB α)
    (ch : Option (Fin 8 → NodeB α)) : (n.withChildren ch).modified = n.modified := by
  cases n; rfl

@[simp] theorem leaf_withChildren {α : Type} (n : NodeB α)
    (ch : Option (Fin 8 → NodeB α)) : (n.withChildren ch).leaf = n.leaf := by
  cases n; rfl

@[simp] theorem children_withChildren {α : Type} (n : NodeB α)
    (ch : Option (Fin 8 → NodeB α)) : (n.withChildren ch).children = ch := by
  cases n; rfl

@[simp] theorem defaultNode_payload {α : Type} (d0 : α) :
    (defaultNode d0).payload = fun _ => d0 := rfl

@[simp] theorem defaultNode_modified {α : Type} (d0 : α) :
    (defaultNode d0).modified = fun _ => false := rfl

@[simp] theorem defaultNode_leaf {α : Type} (d0 : α) :
    (defaultNode d0).leaf = fun _ => true := rfl

@[simp] theorem defaultNode_children {α : Type} (d0 : α) :
    (defaultNode d0).children = none := rfl

@[simp] theorem fillNode_leaf {α : Type} (H : Hooks α) (n : NodeB α) (i : Fin 8) :
    (fillNode H n i).leaf = fun _ => true := rfl

@[simp] theorem fillNode_children {α : Type} (H : Hooks α) (n : NodeB α) (i : Fin 8) :
    (fillNode H n i).children = none := rfl

@[simp] theorem fillNode_modified {α : Type} (H : Hooks α) (n : NodeB α) (i : Fin 8) :
    (fillNode H n i).modified = fun _ => n.modified i := rfl

@[simp] theorem fillNode_payload {α : Type} (H : Hooks α) (n : NodeB α) (i : Fin 8) :
    (fillNode H n i).payload = fun _ => H.fillH (n.payload i) := rfl

theorem childAt_of_children {α : Type} (d0 : α) {n : NodeB α} {blk : Fin 8 → NodeB α}
    (h : n.children = some blk) (i : Fin 8) : childAt d0 n i = blk i := by
  unfold childAt
  rw [h]

@[simp] theorem upd_same {β : Type} (f : Fin 8 → β) (i : Fin 8) (v : β) :
    upd f i v i = v := by simp [upd]

theorem upd_other {β : Type} (f : Fin 8 → β) {i j : Fin 8} (v : β) (h : j ≠ i) :
    upd f i v j = f j := by simp [upd, h]

@[simp] theorem blockAt_nil {α : Type} (n : NodeB α) : blockAt n [] = some n := rfl

theorem blockAt_cons {α : Type} (n : NodeB α) (i : Fin 8) (p : List (Fin 8)) :
    blockAt n (i :: p) =
      match n.children with
      | none => none
      | some blk => if n.leaf i then none else blockAt (blk i) p := rfl

theorem blockAt_cons_some {α : Type} {n : NodeB α} {blk : Fin 8 → NodeB α}
    (h : n.children = some blk) {i : Fin 8} (hl : n.leaf i = false) (p : List (Fin 8)) :
    blockAt n (i :: p) = blockAt (blk i) p := by
  rw [blockAt_cons, h]
  simp [hl]

theorem blockAt_cons_elim {α : Type} {n : NodeB α} {i : Fin 8} {p : List (Fin 8)}
    {B : NodeB α} (h : blockAt n (i :: p) = some B) :
    ∃ blk, n.children = some blk ∧ n.leaf i = false ∧ blockAt (blk i) p = some B := by
  rw [blockAt_cons] at h
  rcases hch : n.children with _ | blk
  · rw [hch] at h
    simp at h
  · rw [hch] at h
    rcases hl : n.leaf i with _ | _
    · rw [hl] at h
      simp at h
      exact ⟨blk, rfl, rfl, h⟩
    · rw [hl] at h
      simp at h

/-! ### Effect lemmas for pruning and aggregation -/

theorem setChildAt_modified {α : Type} (n : NodeB α) (i : Fin 8) (ch : NodeB α) :
    (setChildAt n i ch).modified = n.modified := by
  unfold setChildAt
  rcases h : n.children with _ | blk <;> simp

theorem setChildAt_leaf {α : Type} (n : NodeB α) (i : Fin 8) (ch : NodeB α) :
    (setChildAt n i ch).leaf = n.leaf := by
  unfold setChildAt
  rcases h : n.children with _ | blk <;> simp

theorem deallocIfAll_modified {α : Type} (autoP : Bool) (n : NodeB α) :
    (deallocIfAll autoP n).modified = n.modified := by
  unfold deallocIfAll
  split <;> [skip; rfl]
  split <;> simp

theorem deleteChildrenB_modified {α : Type} (d0 : α) (autoP : Bool) (n : NodeB α)
    (idxs : Fin 8 → Bool) : (deleteChildrenB d0 autoP n idxs).modified = n.modified := by
  unfold deleteChildrenB
  split
  · rfl
  · rw [deallocIfAll_modified]
    simp

theorem pruneB_modified {α : Type} (H : Hooks α) (d0 : α) (autoP : Bool) (n : NodeB α)
    (idxs : Fin 8 → Bool) (depth : Nat) :
    (pruneB H d0 autoP n idxs depth).modified = n.modified := by
  unfold pruneB
  split
  · rw [deleteChildrenB_modified]
  · rfl

theorem updateNodeB_modified {α : Type} (H : Hooks α) (d0 : α) (autoP : Bool)
    (n : NodeB α) (idxs : Fin 8 → Bool) (depth : Nat) :
    (updateNodeB H d0 autoP n idxs depth).modified = n.modified := by
  unfold updateNodeB
  rw [pruneB_modified]
  simp

theorem deallocIfAll_descend {α : Type} {autoP : Bool} {n : NodeB α} {j : Fin 8}
    {q : List (Fin 8)} {B' : NodeB α}
    (h : blockAt (deallocIfAll autoP n) (j :: q) = some B') :
    blockAt n (j :: q) = some B' := by
  unfold deallocIfAll at h
  split at h
  · split at h
    · rcases blockAt_cons_elim h with ⟨blk1, hc1, _, _⟩
      simp at hc1
    · exact h
  · exact h

/-- Descending one step through a pruned block: the reached child existed, with the
same subtree, before the pruning. -/
theorem deleteChildrenB_descend {α : Type} {d0 : α} {autoP : Bool} {n : NodeB α}
    {idxs : Fin 8 → Bool} {j : Fin 8} {q : List (Fin 8)} {B' : NodeB α}
    (h : blockAt (deleteChildrenB d0 autoP n idxs) (j :: q) = some B') :
    ∃ blk, n.children = some blk ∧ n.leaf j = false ∧ blockAt (blk j) q = some B' := by
  unfold deleteChildrenB at h
  split at h
  · exact blockAt_cons_elim h
  · have h2 := deallocIfAll_descend h
    rcases blockAt_cons_elim h2 with ⟨blk1, hc1, hl1, hb1⟩
    rw [children_withChildren] at hc1
    rw [leaf_withChildren, leaf_withLeaf] at hl1
    have hlj : n.leaf j = false ∧ idxs j = false := by
      constructor <;> [exact (Bool.or_eq_false_iff.mp hl1).1;
        exact (Bool.or_eq_false_iff.mp hl1).2]
    rcases hch : n.children with _ | blk
    · rw [hch] at hc1
      cases hc1
    · rw [hch] at hc1
      have hblk1 : (fun i => if idxs i && ! n.leaf i then defaultNode d0 else blk i) =
          blk1 := Option.some.inj hc1
      refine ⟨blk, rfl, hlj.1, ?_⟩
      rw [← hblk1] at hb1
      simpa [hlj.1, hlj.2] using hb1

theorem pruneB_descend {α : Type} {H : Hooks α} {d0 : α} {autoP : Bool} {n : NodeB α}
    {idxs : Fin 8 → Bool} {depth : Nat} {j : Fin 8} {q : List (Fin 8)} {B' : NodeB α}
    (h : blockAt (pruneB H d0 autoP n idxs depth) (j :: q) = some B') :
    ∃ blk, n.children = some blk ∧ n.leaf j = false ∧ blockAt (blk j) q = some B' := by
  unfold pruneB at h
  split at h
  · exact deleteChildrenB_descend h
  · exact blockAt_cons_elim h

theorem updateNodeB_descend {α : Type} {H : Hooks α} {d0 : α} {autoP : Bool}
    {n : NodeB α} {idxs : Fin 8 → Bool} {depth : Nat} {j : Fin 8} {q : List (Fin 8)}
    {B' : NodeB α}
    (h : blockAt (updateNodeB H d0 autoP n idxs depth) (j :: q) = some B') :
    ∃ blk, n.children = some blk ∧ n.leaf j = false ∧ blockAt (blk j) q = some B' := by
  unfold updateNodeB at h
  rcases pruneB_descend h with ⟨blk, hc, hl, hb⟩
  simp at hc hl
  exact ⟨blk, hc, hl, hb⟩

/-! ### Claim C10: keep_modified never clears surviving bits -/

/-- The child-block transformation step of `propagateModifiedRecurs`, written out. -/
theorem propModN_succ_eq {α : Type} (H : Hooks α) (d0 : α) (autoP keep : Bool)
    (maxD d : Nat) (n : NodeB α) :
    propModN H d0 autoP keep maxD (d + 1) n =
      if anyb (fun i => n.modified i && ! n.leaf i) = false then
        (if keep = false ∧ d + 1 ≤ maxD then n.withModified (fun _ => false) else n)
      else
        (if d + 1 ≤ maxD then
          (if keep then
            updateNodeB H d0 autoP
              (if d = 0 then
                (if keep then n else n.withChildren (match n.children with
                  | some blk => some (fun i => if n.modified i && ! n.leaf i then
                      (blk i).withModified (fun _ => false) else blk i)
                  | none => none))
              else n.withChildren (match n.children with
                | some blk => some (fun i => if n.modified i && ! n.leaf i then
                    propModN H d0 autoP keep maxD d (blk i) else blk i)
                | none => none))
              (fun i => n.modified i && ! n.leaf i) (d + 1)
          else
            (updateNodeB H d0 autoP
              (if d = 0 then
                (if keep then n else n.withChildren (match n.children with
                  | some blk => some (fun i => if n.modified i && ! n.leaf i then
                      (blk i).withModified (fun _ => false) else blk i)
                  | none => none))
              else n.withChildren (match n.children with
                | some blk => some (fun i => if n.modified i && ! n.leaf i then
                    propModN H d0 autoP keep maxD d (blk i) else blk i)
                | none => none))
              (fun i => n.modified i && ! n.leaf i) (d + 1)).withModified (fun _ => false))
        else
          (if d = 0 then
            (if keep then n else n.withChildren (match n.children with
              | some blk => some (fun i => if n.modified i && ! n.leaf i then
                  (blk i).withModified (fun _ => false) else blk i)
              | none => none))
          else n.withChildren (match n.children with
            | some blk => some (fun i => if n.modified i && ! n.leaf i then
                propModN H d0 autoP keep maxD d (blk i) else blk i)
            | none => none))) := rfl

theorem propModN_keepTrue_mono {α : Type} (H : Hooks α) (d0 : α) (autoP : Bool)
    (maxD : Nat) :
    ∀ (depth : Nat) (n : NodeB α) (p : List (Fin 8)) (B B' : NodeB α) (i : Fin 8),
      blockAt n p = some B → B.modified i = true →
      blockAt (propModN H d0 autoP true maxD depth n) p = some B' →
      B'.modified i = true := by
  intro depth
  induction depth with
  | zero =>
    intro n p B B' i h1 h2 h3
    rw [show propModN H d0 autoP true maxD 0 n = n from rfl, h1] at h3
    rw [(Option.some.inj h3).symm]
    exact h2
  | succ d ih =>
    intro n p B B' i h1 h2 h3
    rw [propModN_succ_eq] at h3
    by_cases hmp : anyb (fun i => n.modified i && ! n.leaf i) = false
    · rw [if_pos hmp, if_neg (by simp)] at h3
      rw [h1] at h3
      rw [(Option.some.inj h3).symm]
      exact h2
    · rw [if_neg hmp] at h3
      have hstep : ∀ B'' : NodeB α, blockAt
          (if d = 0 then
            (if true then n else n.withChildren (match n.children with
              | some blk => some (fun i => if n.modified i && ! n.leaf i then
                  (blk i).withModified (fun _ => false) else blk i)
              | none => none))
          else n.withChildren (match n.children with
            | some blk => some (fun i => if n.modified i && ! n.leaf i then
                propModN H d0 autoP true maxD d (blk i) else blk i)
            | none => none)) p = some B'' → B''.modified i = true := by
        intro B'' hB''
        by_cases hd : d = 0
        · rw [if_pos hd, if_pos rfl] at hB''
          rw [h1] at hB''
          rw [(Option.some.inj hB'').symm]
          exact h2
        · rw [if_neg hd] at hB''
          cases p with
          | nil =>
            rw [(Option.some.inj hB'').symm, modified_withChildren]
            rw [show n = B from Option.some.inj h1]
            exact h2
          | cons j q =>
            rcases blockAt_cons_elim h1 with ⟨blk, hch, hlj, hbj⟩
            rcases blockAt_cons_elim hB'' with ⟨blk2, hch2, _, hb2⟩
            rw [children_withChildren, hch] at hch2
            have hblk2 : (fun i => if n.modified i && ! n.leaf i then
                propModN H d0 autoP true maxD d (blk i) else blk i) = blk2 :=
              Option.some.inj hch2
            rw [← hblk2] at hb2
            by_cases hmpj : (n.modified j && ! n.leaf j) = true
            · simp only [hmpj, if_true] at hb2
              exact ih (blk j) q B B'' i hbj h2 hb2
            · simp only [Bool.not_eq_true] at hmpj
              simp only [hmpj, Bool.false_eq_true, if_false] at hb2
              rw [hbj] at hb2
              rw [(Option.some.inj hb2).symm]
              exact h2
      by_cases hle : d + 1 ≤ maxD
      · rw [if_pos hle, if_pos rfl] at h3
        cases p with
        | nil =>
          have hB' := Option.some.inj h3.symm
          rw [hB', updateNodeB_modified]
          have := hstep _ (blockAt_nil _)
          exact this
        | cons j q =>
          rcases updateNodeB_descend h3 with ⟨blk1, hch1, hl1, hb1⟩
          exact hstep B' ((blockAt_cons_some hch1 hl1 q).trans hb1)
      · rw [if_neg hle] at h3
        exact hstep B' h3

/-- The body of the 5-argument `propagateModified`, written out. -/
theorem propModEntry_eq {α : Type} (H : Hooks α) (d0 : α) (autoP : Bool) (n : NodeB α)
    (index : Fin 8) (depth : Nat) (keep : Bool) (maxD : Nat) :
    propModEntry H d0 autoP n index depth keep maxD =
      if n.modified index = false then n
      else
        (if depth ≤ maxD then
          (if keep then
            updateNodeB H d0 autoP
              (if depth = 1 then
                (if keep then n
                 else setChildAt n index ((childAt d0 n index).withModified (fun _ => false)))
               else setChildAt n index (propModN H d0 autoP keep maxD (depth - 1)
                (childAt d0 n index)))
              (fun j => j == index) depth
          else
            (updateNodeB H d0 autoP
              (if depth = 1 then
                (if keep then n
                 else setChildAt n index ((childAt d0 n index).withModified (fun _ => false)))
               else setChildAt n index (propModN H d0 autoP keep maxD (depth - 1)
                (childAt d0 n index)))
              (fun j => j == index) depth).withModified
                (upd (updateNodeB H d0 autoP
                  (if depth = 1 then
                    (if keep then n
                     else setChildAt n index ((childAt d0 n index).withModified
                       (fun _ => false)))
                   else setChildAt n index (propModN H d0 autoP keep maxD (depth - 1)
                    (childAt d0 n index)))
                  (fun j => j == index) depth).modified index false))
        else
          (if depth = 1 then
            (if keep then n
             else setChildAt n index ((childAt d0 n index).withModified (fun _ => false)))
           else setChildAt n index (propModN H d0 autoP keep maxD (depth - 1)
            (childAt d0 n index)))) := rfl

theorem propModEntry_keepTrue_mono {α : Type} (H : Hooks α) (d0 : α) (autoP : Bool)
    (index : Fin 8) (depth maxD : Nat) (T : NodeB α) (p : List (Fin 8)) (i : Fin 8)
    (B B' : NodeB α) (hb : blockAt T p = some B) (hm : B.modified i = true)
    (ha : blockAt (propModEntry H d0 autoP T index depth true maxD) p = some B') :
    B'.modified i = true := by
  rw [propModEntry_eq] at ha
  by_cases h0 : T.modified index = false
  · rw [if_pos h0] at ha
    rw [hb] at ha
    rw [(Option.some.inj ha).symm]
    exact hm
  · rw [if_neg h0] at ha
    have hn1 : ∀ B'' : NodeB α, blockAt
        (if depth = 1 then
          (if true then T
           else setChildAt T index ((childAt d0 T index).withModified (fun _ => false)))
         else setChildAt T index
          (propModN H d0 autoP true maxD (depth - 1) (childAt d0 T index)))
        p = some B'' → B''.modified i = true := by
      intro B'' hB''
      by_cases hd1 : depth = 1
      · rw [if_pos hd1, if_pos rfl] at hB''
        rw [hb] at hB''
        rw [(Option.some.inj hB'').symm]
        exact hm
      · rw [if_neg hd1] at hB''
        cases p with
        | nil =>
          rw [(Option.some.inj hB'').symm, setChildAt_modified]
          rw [show T = B from Option.some.inj hb]
          exact hm
        | cons j q =>
          rcases blockAt_cons_elim hb with ⟨blk, hch, hlj, hbj⟩
          unfold setChildAt at hB''
          rw [hch] at hB''
          rcases blockAt_cons_elim hB'' with ⟨blk2, hch2, _, hb2⟩
          rw [children_withChildren] at hch2
          have hblk2 : upd blk index (propModN H d0 autoP true maxD (depth - 1)
              (childAt d0 T index)) = blk2 := Option.some.inj hch2
          rw [← hblk2] at hb2
          by_cases hji : j = index
          · rw [hji] at hb2 hbj
            rw [upd_same, childAt_of_children d0 hch] at hb2
            exact propModN_keepTrue_mono H d0 autoP maxD (depth - 1) (blk index) q B B''
              i hbj hm hb2
          · rw [upd_other _ _ hji] at hb2
            rw [hbj] at hb2
            rw [(Option.some.inj hb2).symm]
            exact hm
    by_cases hle : depth ≤ maxD
    · rw [if_pos hle, if_pos rfl] at ha
      rcases p with _ | ⟨j, q⟩
      · have hB' := Option.some.inj ha.symm
        rw [hB', updateNodeB_modified]
        exact hn1 _ (blockAt_nil _)
      · rcases updateNodeB_descend ha with ⟨blk1, hch1, hl1, hb1⟩
        exact hn1 B' ((blockAt_cons_some hch1 hl1 q).trans hb1)
    · rw [if_neg hle] at ha
      exact hn1 B' ha

/-- C10: `propagateModified` with `keep_modified = true` never clears a modified
bit: for every map state and every `max_depth`, every slot that is modified before
the call and still exists after it is still modified afterwards. -/
theorem C10_keep_modified_monotone {α : Type} (H : Hooks α) (d0 : α) (autoP : Bool)
    (dl maxD : Nat) (T : NodeB α) (p : List (Fin 8)) (i : Fin 8) (B B' : NodeB α)
    (hb : blockAt T p = some B) (hm : B.modified i = true)
    (ha : blockAt (propagateRoot H d0 autoP dl true maxD T) p = some B') :
    B'.modified i = true :=
  propModEntry_keepTrue_mono H d0 autoP 0 (dl - 1) maxD T p i B B' hb hm ha

/-- The concrete reachable map used by the closed examples: one `apply` at the
depth-0 code 0 on a fresh 3-level map with the `natHooks` payload. -/
def exMap1 : NodeB Nat :=
  (applyCode natHooks 0 true 3 (Code.ofRaw 0 0) (fun _ => 7) (fun p => p) false
    (defaultNode 0)).1

/-- C10 witness: the root bit set by an `apply` survives a keep-modified
propagation of the concrete example map. -/
theorem C10_keep_modified_monotone_witness :
    (propagateRoot natHooks 0 true 3 true 22 exMap1).modified 0 = true :=
  C10_keep_modified_monotone natHooks 0 true 3 22 exMap1 [] 0 exMap1
    (propagateRoot natHooks 0 true 3 true 22 exMap1) rfl (by decide) rfl

/-! ### Claim C5: leaf bits versus child storage -/

/-- Structural well-formedness of a block: a null child pointer forces all leaf
bits, recursively.  This is the (amended) allocation invariant: a slot with a
cleared leaf bit always has its shared child block allocated. -/
def WFs {α : Type} : NodeB α → Prop
  | NodeB.node _ _ l none => ∀ i, l i = true
  | NodeB.node _ _ _ (some blk) => ∀ i, WFs (blk i)

theorem WFs_children_none {α : Type} {n : NodeB α} (h : WFs n)
    (hch : n.children = none) : ∀ i, n.leaf i = true := by
  cases n with
  | node p m l ch =>
    cases ch with
    | none => exact h
    | some blk => cases hch

theorem WFs_children_some {α : Type} {n : NodeB α} {blk : Fin 8 → NodeB α} (h : WFs n)
    (hch : n.children = some blk) : ∀ i, WFs (blk i) := by
  cases n with
  | node p m l ch =>
    cases ch with
    | none => cases hch
    | some blk' =>
      cases hch
      exact h

theorem WFs_mk_some {α : Type} {p : Fin 8 → α} {m l : Fin 8 → Bool}
    {blk : Fin 8 → NodeB α} (h : ∀ i, WFs (blk i)) :
    WFs (NodeB.node p m l (some blk)) := h

theorem WFs_isSome_of_leaf_false {α : Type} {n : NodeB α} (h : WFs n) {i : Fin 8}
    (hl : n.leaf i = false) : n.children.isSome = true := by
  rcases hch : n.children with _ | blk
  · rw [WFs_children_none h hch i] at hl
    cases hl
  · rfl

theorem WFs_defaultNode {α : Type} (d0 : α) : WFs (defaultNode d0) := fun _ => rfl

theorem WFs_fillNode {α : Type} (H : Hooks α) (n : NodeB α) (i : Fin 8) :
    WFs (fillNode H n i) := fun _ => rfl

theorem WFs_withPayload {α : Type} {n : NodeB α} (h : WFs n) (p : Fin 8 → α) :
    WFs (n.withPayload p) := by
  cases n with
  | node q m l ch => cases ch <;> exact h

theorem WFs_withModified {α : Type} {n : NodeB α} (h : WFs n) (m' : Fin 8 → Bool) :
    WFs (n.withModified m') := by
  cases n with
  | node q m l ch => cases ch <;> exact h

theorem WFs_childAt {α : Type} {n : NodeB α} (h : WFs n) (d0 : α) (i : Fin 8) :
    WFs (childAt d0 n i) := by
  unfold childAt
  rcases hch : n.children with _ | blk
  · exact WFs_defaultNode d0
  · exact WFs_children_some h hch i

theorem WFs_setChildAt {α : Type} {n ch : NodeB α} (h : WFs n) (hch : WFs ch)
    (i : Fin 8) : WFs (setChildAt n i ch) := by
  unfold setChildAt
  rcases hc : n.children with _ | blk
  · exact h
  · cases n with
    | node q m l c =>
      cases c with
      | none => cases hc
      | some blk' =>
        cases hc
        refine WFs_mk_some ?_
        intro j
        by_cases hj : j = i
        · rw [hj, upd_same]
          exact hch
        · rw [upd_other _ _ hj]
          exact h j

theorem WFs_createChildren {α : Type} {n : NodeB α} (h : WFs n) (H : Hooks α)
    (d0 : α) (i : Fin 8) : WFs (createChildren H d0 n i) := by
  unfold createChildren
  split
  · cases n with
    | node q m l ch =>
      refine WFs_mk_some ?_
      intro j
      by_cases hj : j = i
      · rw [hj, upd_same]
        exact WFs_fillNode H _ i
      · rw [upd_other _ _ hj]
        cases ch with
        | none => exact WFs_defaultNode d0
        | some blk => exact h j
  · exact h

theorem WFs_applyAllRecurs {α : Type} (H : Hooks α) (d0 : α) (f : α → α)
    (f2 : (Fin 8 → α) → Fin 8 → α) :
    ∀ (d : Nat) (idxs : Fin 8 → Bool) (n : NodeB α), WFs n →
      WFs (applyAllRecurs H d0 f f2 d idxs n) := by
  intro d
  induction d with
  | zero => intro idxs n h; exact h
  | succ d ih =>
    intro idxs n h
    cases d with
    | zero =>
      show WFs (n.withChildren (some _))
      cases n with
      | node q m l ch =>
        refine WFs_mk_some ?_
        intro j
        split
        · exact WFs_withModified (WFs_withPayload (WFs_childAt h d0 j) _) _
        · exact WFs_childAt h d0 j
    | succ d' =>
      show WFs (n.withChildren (some _))
      cases n with
      | node q m l ch =>
        refine WFs_mk_some ?_
        intro j
        split
        · refine WFs_withModified ?_ _
          split
          · exact WFs_withPayload (WFs_childAt h d0 j) _
          · exact ih _ _ (WFs_withPayload (WFs_childAt h d0 j) _)
        · exact WFs_childAt h d0 j

theorem WFs_applyA {α : Type} (H : Hooks α) (d0 : α) (f : α → α)
    (f2 : (Fin 8 → α) → Fin 8 → α) (idx : Nat → Fin 8) (cdepth : Nat) :
    ∀ (depth : Nat) (n : NodeB α), WFs n →
      WFs (applyA H d0 f f2 idx cdepth depth n) := by
  intro depth
  induction depth with
  | zero => intro n h; exact h
  | succ d ih =>
    intro n h
    show WFs (if max cdepth 1 = d + 1 then _ else _)
    split
    · split
      · refine WFs_setChildAt ?_ ?_ _
        · exact WFs_withModified (WFs_createChildren h H d0 _) _
        · refine WFs_withModified (WFs_withPayload ?_ _) _
          exact WFs_childAt (WFs_withModified (WFs_createChildren h H d0 _) _) d0 _
      · split
        · exact WFs_withModified (WFs_withPayload h _) _
        · exact WFs_withModified (WFs_applyAllRecurs H d0 f f2 _ _ n h) _
    · refine WFs_setChildAt ?_ ?_ _
      · exact WFs_withModified (WFs_createChildren h H d0 _) _
      · exact ih _ (WFs_childAt (WFs_withModified (WFs_createChildren h H d0 _) _) d0 _)

theorem WFs_withLeaf_keep_some {α : Type} {n : NodeB α} {blk : Fin 8 → NodeB α}
    (h : WFs n) (hch : n.children = some blk) (l' : Fin 8 → Bool) :
    WFs (n.withLeaf l') := by
  cases n with
  | node q m l ch =>
    cases ch with
    | none => cases hch
    | some blk' => exact h

theorem WFs_deallocIfAll {α : Type} {n : NodeB α} (h : WFs n) (autoP : Bool) :
    WFs (deallocIfAll autoP n) := by
  unfold deallocIfAll
  by_cases hall : allb n.leaf = true
  · rw [if_pos hall]
    by_cases hauto : autoP = true
    · rw [if_pos hauto]
      have hl : ∀ i, n.leaf i = true := of_decide_eq_true hall
      cases n with
      | node q m l ch =>
        intro i
        exact hl i
    · rw [if_neg hauto]
      exact h
  · rw [if_neg hall]
    exact h

theorem WFs_deleteChildrenB {α : Type} {n : NodeB α} (h : WFs n) (d0 : α)
    (autoP : Bool) (idxs : Fin 8 → Bool) : WFs (deleteChildrenB d0 autoP n idxs) := by
  unfold deleteChildrenB
  split
  · exact h
  · refine WFs_deallocIfAll ?_ autoP
    cases n with
    | node q m l ch =>
      cases ch with
      | none =>
        intro i
        have hl : (NodeB.node q m l none).leaf i = true := h i
        simp [hl]
      | some blk =>
        refine WFs_mk_some ?_
        intro j
        have h' : ∀ i, WFs (blk i) := h
        split
        · exact WFs_defaultNode d0
        · exact h' j

theorem WFs_pruneB {α : Type} {n : NodeB α} (h : WFs n) (H : Hooks α) (d0 : α)
    (autoP : Bool) (idxs : Fin 8 → Bool) (depth : Nat) :
    WFs (pruneB H d0 autoP n idxs depth) := by
  unfold pruneB
  split
  · exact WFs_deleteChildrenB h d0 autoP _
  · exact h

theorem WFs_updateNodeB {α : Type} {n : NodeB α} (h : WFs n) (H : Hooks α) (d0 : α)
    (autoP : Bool) (idxs : Fin 8 → Bool) (depth : Nat) :
    WFs (updateNodeB H d0 autoP n idxs depth) := by
  unfold updateNodeB
  exact WFs_pruneB (WFs_withPayload h _) H d0 autoP idxs depth

theorem WFs_propModN {α : Type} (H : Hooks α) (d0 : α) (autoP keep : Bool)
    (maxD : Nat) : ∀ (depth : Nat) (n : NodeB α), WFs n →
      WFs (propModN H d0 autoP keep maxD depth n) := by
  intro depth
  induction depth with
  | zero => intro n h; exact h
  | succ d ih =>
    intro n h
    rw [propModN_succ_eq]
    have hstep : ∀ b : Bool, WFs (if d = 0 then
        (if b then n else n.withChildren (match n.children with
          | some blk => some (fun i => if n.modified i && ! n.leaf i then
              (blk i).withModified (fun _ => false) else blk i)
          | none => none))
      else n.withChildren (match n.children with
        | some blk => some (fun i => if n.modified i && ! n.leaf i then
            propModN H d0 autoP keep maxD d (blk i) else blk i)
        | none => none)) := by
      intro b
      by_cases hd : d = 0
      · rw [if_pos hd]
        cases b with
        | true => exact h
        | false =>
          cases n with
          | node q m l ch =>
            cases ch with
            | none => exact h
            | some blk =>
              refine WFs_mk_some ?_
              intro j
              have h' : ∀ i, WFs (blk i) := h
              split
              · exact WFs_withModified (h' j) _
              · exact h' j
      · rw [if_neg hd]
        cases n with
        | node q m l ch =>
          cases ch with
          | none => exact h
          | some blk =>
            refine WFs_mk_some ?_
            intro j
            have h' : ∀ i, WFs (blk i) := h
            split
            · exact ih _ (h' j)
            · exact h' j
    split
    · split
      · exact WFs_withModified h _
      · exact h
    · split
      · split
        · exact WFs_updateNodeB (hstep true) H d0 autoP _ _
        · exact WFs_withModified (WFs_updateNodeB (hstep false) H d0 autoP _ _) _
      · exact hstep keep

theorem WFs_propModEntry {α : Type} (H : Hooks α) (d0 : α) (autoP : Bool)
    (n : NodeB α) (h : WFs n) (index : Fin 8) (depth : Nat) (keep : Bool)
    (maxD : Nat) : WFs (propModEntry H d0 autoP n index depth keep maxD) := by
  rw [propModEntry_eq]
  have hstep : ∀ b : Bool, WFs (if depth = 1 then
      (if b then n
       else setChildAt n index ((childAt d0 n index).withModified (fun _ => false)))
     else setChildAt n index (propModN H d0 autoP keep maxD (depth - 1)
      (childAt d0 n index))) := by
    intro b
    by_cases hd : depth = 1
    · rw [if_pos hd]
      cases b with
      | true => exact h
      | false =>
        exact WFs_setChildAt h (WFs_withModified (WFs_childAt h d0 index) _) index
    · rw [if_neg hd]
      exact WFs_setChildAt h
        (WFs_propModN H d0 autoP keep maxD _ _ (WFs_childAt h d0 index)) index
  split
  · exact h
  · split
    · split
      · exact WFs_updateNodeB (hstep true) H d0 autoP _ _
      · exact WFs_withModified (WFs_updateNodeB (hstep false) H d0 autoP _ _) _
    · exact hstep keep

theorem WFs_reachable {α : Type} {H : Hooks α} {d0 : α} {autoP : Bool} {dl : Nat}
    {T : NodeB α} (hr : Reachable H d0 autoP dl T) : WFs T := by
  induction hr with
  | fresh => exact WFs_defaultNode d0
  | applyStep T c f f2 prop hr hc ih =>
    unfold applyCode
    split
    · exact ih
    · show WFs (if prop then _ else _)
      split
      · exact WFs_propModEntry H d0 autoP _ (WFs_applyA H d0 f f2 _ _ _ _ ih) _ _ _ _
      · exact WFs_applyA H d0 f f2 _ _ _ _ ih
  | propStep T keep maxD hr ih =>
    exact WFs_propModEntry H d0 autoP _ ih _ _ _ _

theorem WFs_blockAt {α : Type} : ∀ (p : List (Fin 8)) (T B : NodeB α), WFs T →
    blockAt T p = some B → WFs B := by
  intro p
  induction p with
  | nil =>
    intro T B h hB
    rw [(Option.some.inj hB).symm]
    exact h
  | cons j q ih =>
    intro T B h hB
    rcases blockAt_cons_elim hB with ⟨blk, hch, _, hb⟩
    exact ih (blk j) B (WFs_children_some h hch j) hb

/-- C5 (amended): in every reachable map state, a slot with a cleared leaf bit has
the shared child block of its node allocated (`leaf[i] == 0` implies
`children != null`).  The converse direction of the claimed biconditional fails,
see the counterexample: allocation is per 8-slot block, so a slot's leaf bit can
be 1 while the node's block is allocated for a sibling. -/
theorem C5_leaf_implies_allocated {α : Type} {H : Hooks α} {d0 : α} {autoP : Bool}
    {dl : Nat} {T : NodeB α} (hr : Reachable H d0 autoP dl T) (p : List (Fin 8))
    (B : NodeB α) (hB : blockAt T p = some B) (i : Fin 8) (hl : B.leaf i = false) :
    B.children.isSome = true :=
  WFs_isSome_of_leaf_false (WFs_blockAt p T B (WFs_reachable hr) hB) hl

/-- C5 counterexample: in the reachable map `exMap1` the depth-1 block under the
root has `leaf[1] == 1` while its (shared) child block is allocated, refuting
`leaf[i] == 1 ⇔ child storage null`. -/
theorem C5_leaf_iff_null_counterexample :
    (childAt 0 exMap1 0).leaf 1 = true ∧
      (childAt 0 exMap1 0).children.isSome = true ∧
      Reachable natHooks 0 true 3 exMap1 :=
  ⟨by decide, by decide,
    Reachable.applyStep (defaultNode 0) (Code.ofRaw 0 0) (fun _ => 7) (fun p => p)
      false Reachable.fresh (by decide)⟩

/-- C5 witness: the amended direction evaluated on the root block of a concrete
reachable map. -/
theorem C5_leaf_implies_allocated_witness :
    exMap1.children.isSome = true :=
  C5_leaf_implies_allocated
    (show Reachable natHooks 0 true 3 exMap1 from
      Reachable.applyStep (defaultNode 0) (Code.ofRaw 0 0) (fun _ => 7) (fun p => p)
        false Reachable.fresh (by decide))
    [] exMap1 rfl 0 (by decide)
/-! ### Claim C6: monotone lookup -/

/-- The child indices of a code from slot depth `hi` down to slot depth `lo`:
the path from the block whose slots sit at depth `hi` to the block whose slots
sit at depth `lo`. -/
def codePath (idx : Nat → Fin 8) : Nat → Nat → List (Fin 8)
  | 0, _ => []
  | hi + 1, lo => if hi + 1 ≤ lo then [] else idx (hi + 1) :: codePath idx hi lo

/-- The body of `leafNodeAndDepth`, written out. -/
theorem findB_succ_eq {α : Type} (d0 : α) (idx : Nat → Fin 8) (cdepth d : Nat)
    (n : NodeB α) :
    findB d0 idx cdepth (d + 1) n =
      if max cdepth 1 = d + 1 then
        (if cdepth = 0 ∧ n.leaf (idx (d + 1)) = false then
          (childAt d0 n (idx (d + 1)), 0)
         else (n, d + 1))
      else if n.leaf (idx (d + 1)) then (n, d + 1)
      else findB d0 idx cdepth d (childAt d0 n (idx (d + 1))) := rfl

/-- The lookup never stops below the requested depth, never above the start
depth, and the block it stops at is the one reached from the start block along
the code's index path. -/
theorem findB_sound {α : Type} (d0 : α) (idx : Nat → Fin 8) (cdepth : Nat) :
    ∀ (d : Nat) (n : NodeB α), WFs n → cdepth ≤ d →
      cdepth ≤ (findB d0 idx cdepth d n).2 ∧
      (findB d0 idx cdepth d n).2 ≤ d ∧
      blockAt n (codePath idx d (findB d0 idx cdepth d n).2) =
        some (findB d0 idx cdepth d n).1 := by
  intro d
  induction d with
  | zero =>
    intro n hw hc
    exact ⟨hc, Nat.le_refl 0, blockAt_nil n⟩
  | succ d ih =>
    intro n hw hc
    rw [findB_succ_eq]
    by_cases ht : max cdepth 1 = d + 1
    · rw [if_pos ht]
      by_cases h0 : cdepth = 0 ∧ n.leaf (idx (d + 1)) = false
      · rw [if_pos h0]
        have hd : d = 0 := by
          rcases h0 with ⟨h01, _⟩
          omega
        refine ⟨by omega, by omega, ?_⟩
        subst hd
        have hpath : codePath idx 1 0 = [idx 1] := by simp [codePath]
        rw [hpath]
        rcases hch : n.children with _ | blk
        · have := WFs_children_none hw hch (idx 1)
          rw [h0.2] at this
          cases this
        · rw [blockAt_cons_some hch h0.2 [], childAt_of_children d0 hch]
          exact blockAt_nil _
      · rw [if_neg h0]
        have hpath : codePath idx (d + 1) (d + 1) = [] := by simp [codePath]
        exact ⟨hc, Nat.le_refl _, by rw [hpath]; exact blockAt_nil n⟩
    · rw [if_neg ht]
      by_cases hlf : n.leaf (idx (d + 1)) = true
      · rw [if_pos hlf]
        have hpath : codePath idx (d + 1) (d + 1) = [] := by simp [codePath]
        exact ⟨hc, Nat.le_refl _, by rw [hpath]; exact blockAt_nil n⟩
      · rw [if_neg hlf]
        have hcd : cdepth ≤ d := by omega
        have hw' : WFs (childAt d0 n (idx (d + 1))) := WFs_childAt hw d0 _
        obtain ⟨h1, h2, h3⟩ := ih (childAt d0 n (idx (d + 1))) hw' hcd
        refine ⟨h1, by omega, ?_⟩
        have hpath : codePath idx (d + 1)
            (findB d0 idx cdepth d (childAt d0 n (idx (d + 1)))).2 =
            idx (d + 1) ::
              codePath idx d (findB d0 idx cdepth d (childAt d0 n (idx (d + 1)))).2 := by
          simp only [codePath]
          rw [if_neg (by omega)]
        rw [hpath]
        rcases hch : n.children with _ | blk
        · exact absurd (WFs_children_none hw hch (idx (d + 1))) hlf
        · rw [blockAt_cons_some hch (Bool.not_eq_true _ ▸ hlf) _,
            ← childAt_of_children d0 hch (idx (d + 1))]
          exact h3

/-- C6: on every reachable map, the lookup of a code `c` with
`c.depth() ≤ rootDepth()` stops at a depth between the requested depth and the
root depth (never numerically below the requested depth), and the block it
returns is the one on `c`'s own index path at the stopping depth - the node at
the requested depth or an enclosing ancestor of it. -/
theorem C6_find_monotone {α : Type} {H : Hooks α} {d0 : α} {autoP : Bool}
    {dl : Nat} {T : NodeB α} (hr : Reachable H d0 autoP dl T) (c : Code)
    (hc : c.depth ≤ dl - 1) :
    c.depth ≤ (findB d0 (codeIdxF c) c.depth (dl - 1) T).2 ∧
    (findB d0 (codeIdxF c) c.depth (dl - 1) T).2 ≤ dl - 1 ∧
    blockAt T (codePath (codeIdxF c) (dl - 1)
        (findB d0 (codeIdxF c) c.depth (dl - 1) T).2) =
      some (findB d0 (codeIdxF c) c.depth (dl - 1) T).1 :=
  findB_sound d0 (codeIdxF c) c.depth (dl - 1) T (WFs_reachable hr) hc

/-- C6 witness: the lookup of the depth-0 code 0 on the fresh 3-level map. -/
theorem C6_find_monotone_witness :
    (Code.ofRaw 0 0).depth ≤
      (findB 0 (codeIdxF (Code.ofRaw 0 0)) (Code.ofRaw 0 0).depth (3 - 1)
        (defaultNode (0 : Nat))).2 ∧
    (findB 0 (codeIdxF (Code.ofRaw 0 0)) (Code.ofRaw 0 0).depth (3 - 1)
        (defaultNode (0 : Nat))).2 ≤ 3 - 1 ∧
    blockAt (defaultNode (0 : Nat)) (codePath (codeIdxF (Code.ofRaw 0 0)) (3 - 1)
        (findB 0 (codeIdxF (Code.ofRaw 0 0)) (Code.ofRaw 0 0).depth (3 - 1)
          (defaultNode (0 : Nat))).2) =
      some (findB 0 (codeIdxF (Code.ofRaw 0 0)) (Code.ofRaw 0 0).depth (3 - 1)
        (defaultNode (0 : Nat))).1 :=
  @C6_find_monotone Nat natHooks 0 true 3 (defaultNode 0) Reachable.fresh
    (Code.ofRaw 0 0) (by decide)

/-! ### Claim C4: which nodes report modified after a single apply -/

theorem seven_testBit (i : Nat) : Nat.testBit 7 i = decide (i < 3) := by
  refine testBit_of_table 7 (fun i => decide (i < 3)) (by decide) (by norm_num) ?_ i
  intro j hj
  simp only [decide_eq_false_iff_not]
  omega

/-- `Code(code, depth)` stores `depth` in its low five bits. -/
theorem ofRaw_depth (k d : Nat) (hd : d < 32) : (Code.ofRaw k d).depth = d := by
  show (u64 ((k >>> (3 * d)) <<< (3 * d + 5)) ||| d) &&& 0x1F = d
  have h1 : (32 : Nat) ∣ (k >>> (3 * d)) <<< (3 * d + 5) := by
    rw [Nat.shiftLeft_eq]
    refine Dvd.dvd.mul_left ?_ _
    have h32 : (32 : Nat) = 2 ^ 5 := by norm_num
    rw [h32]
    exact pow_dvd_pow 2 (by omega)
  have h2 : (32 : Nat) ∣ u64 ((k >>> (3 * d)) <<< (3 * d + 5)) := by
    unfold u64
    exact (Nat.dvd_mod_iff (by norm_num)).mpr h1
  obtain ⟨m, hm⟩ := h2
  rw [hm]
  have h3 : 32 * m = m <<< 5 := by
    rw [Nat.shiftLeft_eq]
    norm_num [Nat.mul_comm]
  rw [h3, shiftLeft_or_eq_add (show d < 2 ^ 5 by omega), and_31_eq_mod]
  have h4 : (2 : Nat) ^ 5 = 32 := by norm_num
  rw [h4]
  omega

/-- `toDepth` keeps every slot index at or above the target depth. -/
theorem toDepth_index_eq (c : Code) (h64 : c.code_ < 2 ^ 64) (e j : Nat)
    (he32 : e < 32) (hej : e ≤ j) : (c.toDepth e).index j = c.index j := by
  show ((u64 (((c.code_ >>> 5) >>> (3 * e)) <<< (3 * e + 5)) ||| e) >>> (3 * j + 5)) &&& 0x7 =
    (c.code_ >>> (3 * j + 5)) &&& 0x7
  rw [shiftRight_shiftRight]
  apply Nat.eq_of_testBit_eq
  intro i
  rw [Nat.testBit_and, Nat.testBit_and, seven_testBit]
  by_cases hi : i < 3
  · rw [Nat.testBit_shiftRight, Nat.testBit_shiftRight, Nat.testBit_or, u64_testBit,
      Nat.testBit_shiftLeft]
    have heb : Nat.testBit e (3 * j + 5 + i) = false :=
      testBit_false_of_lt_pow (show e < 2 ^ 5 by omega) (by omega)
    rw [heb]
    by_cases hbig : 3 * j + 5 + i < 64
    · have hle : 3 * e + 5 ≤ 3 * j + 5 + i := by omega
      rw [Nat.testBit_shiftRight]
      have harith : 5 + 3 * e + (3 * j + 5 + i - (3 * e + 5)) = 3 * j + 5 + i := by
        omega
      rw [harith]
      simp [hbig, hle]
    · have hcb : c.code_.testBit (3 * j + 5 + i) = false :=
        testBit_false_of_lt_pow h64 (by omega)
      rw [hcb]
      simp [hbig]
  · simp [hi]

theorem toDepth_depth (c : Code) (e : Nat) (he32 : e < 32) :
    (c.toDepth e).depth = e :=
  ofRaw_depth (c.code_ >>> 5) e he32

theorem toDepth_codeIdxF_eq (c : Code) (h64 : c.code_ < 2 ^ 64) (e : Nat)
    (he32 : e < 32) : ∀ j, e ≤ j → codeIdxF (c.toDepth e) j = codeIdxF c j := by
  intro j hj
  exact Fin.val_injective (toDepth_index_eq c h64 e j he32 hj)

theorem createChildren_leaf_self {α : Type} (H : Hooks α) (d0 : α) (n : NodeB α)
    (i : Fin 8) : (createChildren H d0 n i).leaf i = false := by
  unfold createChildren
  by_cases hb : n.leaf i = true
  · rw [if_pos hb]
    simp
  · rw [if_neg hb]
    exact (Bool.not_eq_true _) ▸ hb

theorem createChildren_modified {α : Type} (H : Hooks α) (d0 : α) (n : NodeB α)
    (i : Fin 8) : (createChildren H d0 n i).modified = n.modified := by
  unfold createChildren
  by_cases hb : n.leaf i = true
  · rw [if_pos hb]
    simp
  · rw [if_neg hb]

theorem createChildren_children_isSome {α : Type} {n : NodeB α} (hw : WFs n)
    (H : Hooks α) (d0 : α) (i : Fin 8) :
    (createChildren H d0 n i).children.isSome = true := by
  unfold createChildren
  by_cases hb : n.leaf i = true
  · rw [if_pos hb]
    simp
  · rw [if_neg hb]
    exact WFs_isSome_of_leaf_false hw ((Bool.not_eq_true _) ▸ hb)

theorem childAt_setChildAt_self {α : Type} (d0 : α) {n : NodeB α}
    (h : n.children.isSome = true) (i : Fin 8) (x : NodeB α) :
    childAt d0 (setChildAt n i x) i = x := by
  unfold setChildAt
  rcases hch : n.children with _ | blk
  · rw [hch] at h
    cases h
  · unfold childAt
    rw [children_withChildren]
    simp

/-- `apply` marks every slot on the descent path: looking up any depth `e`
between the target depth and the start depth (with an index function agreeing
with the target's at depths `≥ e`) lands on a modified slot. -/
theorem applyA_marks_path {α : Type} (H : Hooks α) (d0 : α) (f : α → α)
    (f2 : (Fin 8 → α) → Fin 8 → α) (idx idx' : Nat → Fin 8) (cdepth e : Nat)
    (hagree : ∀ j, e ≤ j → idx' j = idx j) (hce : cdepth ≤ e) :
    ∀ d, max cdepth 1 ≤ d → e ≤ d → ∀ n : NodeB α, WFs n →
      (findB d0 idx' e d (applyA H d0 f f2 idx cdepth d n)).1.modified
        (idx' (findB d0 idx' e d (applyA H d0 f f2 idx cdepth d n)).2) = true := by
  intro d
  induction d with
  | zero =>
    intro hmx _ n _
    exact absurd hmx (by omega)
  | succ d ih =>
    intro hmx he n hw
    simp only [applyA]
    by_cases ht : max cdepth 1 = d + 1
    · rw [if_pos ht]
      by_cases h0 : cdepth = 0
      · rw [if_pos h0]
        have hd0 : d = 0 := by omega
        subst hd0
        set N := createChildren H d0 n (idx 1) with hN
        set n2 := N.withModified (upd N.modified (idx 1) true) with hn2
        set ch := childAt d0 n2 (idx 1) with hch
        set ch1 := ch.withPayload (upd ch.payload (idx 0) (f (ch.payload (idx 0))))
          with hch1
        set X := ch1.withModified (upd ch1.modified (idx 0) true) with hX
        set T1 := setChildAt n2 (idx 1) X with hT1
        have hsome : n2.children.isSome = true := by
          rw [hn2, children_withModified, hN]
          exact createChildren_children_isSome hw H d0 (idx 1)
        have hleaf : T1.leaf (idx 1) = false := by
          rw [hT1, setChildAt_leaf, hn2, leaf_withModified, hN]
          exact createChildren_leaf_self H d0 n (idx 1)
        rw [findB_succ_eq]
        rw [if_pos (show max e 1 = 0 + 1 by omega)]
        have hai : idx' 1 = idx 1 := hagree 1 (by omega)
        rw [hai]
        by_cases he0 : e = 0
        · rw [if_pos ⟨he0, hleaf⟩]
          show (childAt d0 T1 (idx 1)).modified (idx' 0) = true
          rw [hT1, childAt_setChildAt_self d0 hsome, hX, modified_withModified,
            hagree 0 (by omega)]
          simp
        · have hno : ¬ (e = 0 ∧ T1.leaf (idx 1) = false) :=
            fun hcon => he0 hcon.1
          rw [if_neg hno]
          show T1.modified (idx' 1) = true
          rw [hai, hT1, setChildAt_modified, hn2, modified_withModified]
          simp
      · rw [if_neg h0]
        have hecd : e = d + 1 := by omega
        rw [findB_succ_eq]
        rw [if_pos (show max e 1 = d + 1 by omega)]
        have hai : idx' (d + 1) = idx (d + 1) := hagree _ (by omega)
        rw [hai]
        by_cases hleaf : n.leaf (idx (d + 1)) = true
        · rw [if_pos hleaf]
          set T1 := (n.withPayload (upd n.payload (idx (d + 1))
            (f (n.payload (idx (d + 1)))))).withModified
            (upd n.modified (idx (d + 1)) true) with hT1
          have hno : ¬ (e = 0 ∧ T1.leaf (idx (d + 1)) = false) :=
            fun hcon => by omega
          rw [if_neg hno]
          show T1.modified (idx' (d + 1)) = true
          rw [hai, hT1, modified_withModified]
          simp
        · rw [if_neg hleaf]
          set T1 := (applyAllRecurs H d0 f f2 (d + 1) (fun j => j == idx (d + 1))
            n).withModified (upd (applyAllRecurs H d0 f f2 (d + 1)
            (fun j => j == idx (d + 1)) n).modified (idx (d + 1)) true) with hT1
          have hno : ¬ (e = 0 ∧ T1.leaf (idx (d + 1)) = false) :=
            fun hcon => by omega
          rw [if_neg hno]
          show T1.modified (idx' (d + 1)) = true
          rw [hai, hT1, modified_withModified]
          simp
    · rw [if_neg ht]
      have hd1 : max cdepth 1 ≤ d := by omega
      set N := createChildren H d0 n (idx (d + 1)) with hN
      set n2 := N.withModified (upd N.modified (idx (d + 1)) true) with hn2
      set R := applyA H d0 f f2 idx cdepth d (childAt d0 n2 (idx (d + 1))) with hR
      set T1 := setChildAt n2 (idx (d + 1)) R with hT1
      have hsome : n2.children.isSome = true := by
        rw [hn2, children_withModified, hN]
        exact createChildren_children_isSome hw H d0 (idx (d + 1))
      rw [findB_succ_eq]
      have hai : idx' (d + 1) = idx (d + 1) := hagree _ (by omega)
      rw [hai]
      by_cases hetop : e = d + 1
      · rw [if_pos (show max e 1 = d + 1 by omega)]
        have hno : ¬ (e = 0 ∧ T1.leaf (idx (d + 1)) = false) :=
          fun hcon => by omega
        rw [if_neg hno]
        show T1.modified (idx' (d + 1)) = true
        rw [hai, hT1, setChildAt_modified, hn2, modified_withModified]
        simp
      · rw [if_neg (show ¬ max e 1 = d + 1 by omega)]
        have hleafT : T1.leaf (idx (d + 1)) = false := by
          rw [hT1, setChildAt_leaf, hn2, leaf_withModified, hN]
          exact createChildren_leaf_self H d0 n (idx (d + 1))
        rw [if_neg (show ¬ T1.leaf (idx (d + 1)) = true by
          rw [hleafT]; exact fun hcon => by cases hcon)]
        rw [hT1, childAt_setChildAt_self d0 hsome, hR]
        exact ih hd1 (by omega) _
          (WFs_childAt (WFs_withModified (WFs_createChildren hw H d0 _) _) d0 _)

/-- C4 (amended, the direction of the claim that holds): after a single
`apply(c, f)` without propagation - from any well-formed map, whether or not any
modified bit was set - `isModified` is true for `c` itself and for every code on
the ancestor chain of `c` up to the root (`c.toDepth e` for
`c.depth ≤ e ≤ rootDepth`).  The claimed exactness fails: see the counterexample,
where a descendant of `c` outside the ancestor-chain-plus-`c` set also reports
modified. -/
theorem C4_modified_contains_ancestors {α : Type} (H : Hooks α) (d0 : α)
    (autoP : Bool) (dl : Nat) (c : Code) (f : α → α) (f2 : (Fin 8 → α) → Fin 8 → α)
    (T : NodeB α) (hw : WFs T) (h64 : c.code_ < 2 ^ 64) (hdl : 3 ≤ dl)
    (hdl22 : dl ≤ 22) (hc : c.depth ≤ dl - 1) (e : Nat) (he1 : c.depth ≤ e)
    (he2 : e ≤ dl - 1) :
    isModifiedCode d0 dl (c.toDepth e)
      (applyCode H d0 autoP dl c f f2 false T).1 = true := by
  have he32 : e < 32 := by omega
  unfold applyCode
  rw [if_neg (by omega)]
  simp only [Bool.false_eq_true, if_false]
  unfold isModifiedCode
  rw [toDepth_depth c e he32]
  exact applyA_marks_path H d0 f f2 (codeIdxF c) (codeIdxF (c.toDepth e)) c.depth e
    (toDepth_codeIdxF_eq c h64 e he32) he1 (dl - 1) (by omega) he2 T hw

/-- C4 counterexample to exactness: on a fresh all-unmodified 3-level map, after
a single `apply` at the depth-1 code 0, the depth-0 code 0 - a descendant of the
target, neither an ancestor of it nor the target itself (its depth is below the
target's) - also reports `isModified = true`. -/
theorem C4_modified_exactly_counterexample :
    isModifiedCode 0 3 (Code.ofRaw 0 0)
        (applyCode natHooks 0 true 3 (Code.ofRaw 0 1) (fun _ => 7) (fun p => p) false
          (defaultNode 0)).1 = true ∧
      (Code.ofRaw 0 0).depth < (Code.ofRaw 0 1).depth := by
  exact ⟨by decide, by decide⟩

/-- C4 witness: the ancestor at the root depth of a depth-1 target on the fresh
3-level map reports modified after the apply. -/
theorem C4_modified_contains_ancestors_witness :
    isModifiedCode 0 3 ((Code.ofRaw 0 1).toDepth 2)
      (applyCode natHooks 0 true 3 (Code.ofRaw 0 1) (fun _ => 7) (fun p => p) false
        (defaultNode 0)).1 = true :=
  C4_modified_contains_ancestors natHooks 0 true 3 (Code.ofRaw 0 1) (fun _ => 7)
    (fun p => p) (defaultNode 0) (WFs_defaultNode 0) (by decide) (by decide)
    (by decide) (by decide) 2 (by decide) (by decide)

/-! ### Claim C3: propagate with keep_modified = false -/

/-- A subtree of slot depth `d` with every modified bit cleared, along every
path through non-leaf slots. -/
def CleanB {α : Type} : Nat → NodeB α → Prop
  | 0, n => ∀ i, n.modified i = false
  | _ + 1, NodeB.node _ m _ none => ∀ i, m i = false
  | d + 1, NodeB.node _ m l (some blk) =>
      (∀ i, m i = false) ∧ ∀ i, l i = false → CleanB d (blk i)

/-- A subtree of slot depth `d` in which every non-leaf slot stores the
`updateNode` aggregate of its child block, recursively. -/
def AggB {α : Type} (H : Hooks α) : Nat → NodeB α → Prop
  | 0, _ => True
  | _ + 1, NodeB.node _ _ _ none => True
  | d + 1, NodeB.node p _ l (some blk) =>
      ∀ i, l i = false → (p i = H.updateH (blk i).payload ∧ AggB H d (blk i))

/-- The propagation invariant of reachable subtrees: below every non-leaf
slot whose modified bit is clear, the subtree is clean and aggregated. -/
def MUpB {α : Type} (H : Hooks α) : Nat → NodeB α → Prop
  | 0, _ => True
  | _ + 1, NodeB.node _ _ _ none => True
  | d + 1, NodeB.node p m l (some blk) =>
      ∀ i, l i = false →
        (MUpB H d (blk i) ∧
         (m i = false → CleanB d (blk i) ∧ p i = H.updateH (blk i).payload ∧
           AggB H d (blk i)))

theorem CleanB_mod {α : Type} {d : Nat} {n : NodeB α} (h : CleanB d n) :
    ∀ i, n.modified i = false := by
  cases d with
  | zero => exact h
  | succ d =>
    cases n with
    | node p m l ch =>
      cases ch with
      | none => exact h
      | some blk => exact h.1

theorem CleanB_child {α : Type} {d : Nat} {n : NodeB α} {blk : Fin 8 → NodeB α}
    (h : CleanB (d + 1) n) (hch : n.children = some blk) {i : Fin 8}
    (hl : n.leaf i = false) : CleanB d (blk i) := by
  cases n with
  | node p m l ch =>
    cases ch with
    | none => cases hch
    | some blk' =>
      cases hch
      exact h.2 i hl

theorem CleanB_succ_intro {α : Type} {d : Nat} {n : NodeB α}
    (h1 : ∀ i, n.modified i = false)
    (h2 : ∀ blk, n.children = some blk → ∀ i, n.leaf i = false → CleanB d (blk i)) :
    CleanB (d + 1) n := by
  cases n with
  | node p m l ch =>
    cases ch with
    | none => exact h1
    | some blk => exact ⟨h1, fun i hl => h2 blk rfl i hl⟩

theorem AggB_payload {α : Type} {H : Hooks α} {d : Nat} {n : NodeB α}
    {blk : Fin 8 → NodeB α} (h : AggB H (d + 1) n) (hch : n.children = some blk)
    {i : Fin 8} (hl : n.leaf i = false) : n.payload i = H.updateH (blk i).payload := by
  cases n with
  | node p m l ch =>
    cases ch with
    | none => cases hch
    | some blk' =>
      cases hch
      exact (h i hl).1

theorem AggB_child {α : Type} {H : Hooks α} {d : Nat} {n : NodeB α}
    {blk : Fin 8 → NodeB α} (h : AggB H (d + 1) n) (hch : n.children = some blk)
    {i : Fin 8} (hl : n.leaf i = false) : AggB H d (blk i) := by
  cases n with
  | node p m l ch =>
    cases ch with
    | none => cases hch
    | some blk' =>
      cases hch
      exact (h i hl).2

theorem AggB_succ_intro {α : Type} {H : Hooks α} {d : Nat} {n : NodeB α}
    (h : ∀ blk, n.children = some blk → ∀ i, n.leaf i = false →
      n.payload i = H.updateH (blk i).payload ∧ AggB H d (blk i)) :
    AggB H (d + 1) n := by
  cases n with
  | node p m l ch =>
    cases ch with
    | none => exact trivial
    | some blk => exact fun i hl => h blk rfl i hl

theorem MUpB_child {α : Type} {H : Hooks α} {d : Nat} {n : NodeB α}
    {blk : Fin 8 → NodeB α} (h : MUpB H (d + 1) n) (hch : n.children = some blk)
    {i : Fin 8} (hl : n.leaf i = false) : MUpB H d (blk i) := by
  cases n with
  | node p m l ch =>
    cases ch with
    | none => cases hch
    | some blk' =>
      cases hch
      exact (h i hl).1

theorem MUpB_clean {α : Type} {H : Hooks α} {d : Nat} {n : NodeB α}
    {blk : Fin 8 → NodeB α} (h : MUpB H (d + 1) n) (hch : n.children = some blk)
    {i : Fin 8} (hl : n.leaf i = false) (hm : n.modified i = false) :
    CleanB d (blk i) ∧ n.payload i = H.updateH (blk i).payload ∧ AggB H d (blk i) := by
  cases n with
  | node p m l ch =>
    cases ch with
    | none => cases hch
    | some blk' =>
      cases hch
      exact (h i hl).2 hm

theorem MUpB_succ_intro {α : Type} {H : Hooks α} {d : Nat} {n : NodeB α}
    (h : ∀ blk, n.children = some blk → ∀ i, n.leaf i = false →
      MUpB H d (blk i) ∧
      (n.modified i = false → CleanB d (blk i) ∧
        n.payload i = H.updateH (blk i).payload ∧ AggB H d (blk i))) :
    MUpB H (d + 1) n := by
  cases n with
  | node p m l ch =>
    cases ch with
    | none => exact trivial
    | some blk => exact fun i hl => h blk rfl i hl

theorem MUpB_none {α : Type} (H : Hooks α) (d : Nat) {n : NodeB α}
    (hch : n.children = none) : MUpB H d n := by
  cases d with
  | zero => exact trivial
  | succ d =>
    cases n with
    | node p m l ch =>
      cases ch with
      | none => exact trivial
      | some blk => cases hch

theorem MUpB_of_clean {α : Type} (H : Hooks α) : ∀ (d : Nat) (n : NodeB α),
    CleanB d n → AggB H d n → MUpB H d n := by
  intro d
  induction d with
  | zero => intro n _ _; exact trivial
  | succ d ih =>
    intro n hc ha
    refine MUpB_succ_intro ?_
    intro blk hch i hl
    refine ⟨ih (blk i) (CleanB_child hc hch hl) (AggB_child ha hch hl), fun _ =>
      ⟨CleanB_child hc hch hl, AggB_payload ha hch hl, AggB_child ha hch hl⟩⟩

theorem CleanB_blockAt {α : Type} : ∀ (p : List (Fin 8)) (d : Nat) (n B : NodeB α),
    CleanB d n → blockAt n p = some B → p.length ≤ d →
    ∀ i, B.modified i = false := by
  intro p
  induction p with
  | nil =>
    intro d n B hc hB _
    rw [(Option.some.inj hB).symm]
    exact CleanB_mod hc
  | cons j q ih =>
    intro d n B hc hB hlen
    rcases blockAt_cons_elim hB with ⟨blk, hch, hlj, hb⟩
    cases d with
    | zero => simp at hlen
    | succ d =>
      have hq : q.length ≤ d := by
        simp [List.length_cons] at hlen
        omega
      exact ih d (blk j) B (CleanB_child hc hch hlj) hb hq

theorem AggB_blockAt {α : Type} (H : Hooks α) (d0 : α) :
    ∀ (p : List (Fin 8)) (d : Nat) (n B : NodeB α),
    AggB H d n → WFs n → blockAt n p = some B → p.length < d →
    ∀ i, B.leaf i = false → B.payload i = H.updateH (childAt d0 B i).payload := by
  intro p
  induction p with
  | nil =>
    intro d n B ha hw hB hlen i hl
    cases d with
    | zero => omega
    | succ d =>
      obtain rfl : n = B := Option.some.inj hB
      rcases hch : n.children with _ | blk
      · rw [WFs_children_none hw hch i] at hl
        cases hl
      · rw [childAt_of_children d0 hch]
        exact AggB_payload ha hch hl
  | cons j q ih =>
    intro d n B ha hw hB hlen i hl
    rcases blockAt_cons_elim hB with ⟨blk, hch, hlj, hb⟩
    cases d with
    | zero => omega
    | succ d =>
      have hq : q.length < d := by
        simp [List.length_cons] at hlen
        omega
      exact ih d (blk j) B (AggB_child ha hch hlj) (WFs_children_some hw hch j) hb hq
        i hl

theorem deallocIfAll_leaf {α : Type} (autoP : Bool) (n : NodeB α) :
    (deallocIfAll autoP n).leaf = n.leaf := by
  unfold deallocIfAll
  split
  · split
    · rw [leaf_withChildren]
    · rfl
  · rfl

theorem deallocIfAll_payload {α : Type} (autoP : Bool) (n : NodeB α) :
    (deallocIfAll autoP n).payload = n.payload := by
  unfold deallocIfAll
  split
  · split
    · rw [payload_withChildren]
    · rfl
  · rfl

theorem deallocIfAll_children_some {α : Type} {autoP : Bool} {n : NodeB α}
    {blkU : Fin 8 → NodeB α} (hU : (deallocIfAll autoP n).children = some blkU) :
    n.children = some blkU := by
  unfold deallocIfAll at hU
  split at hU
  · split at hU
    · rw [children_withChildren] at hU
      cases hU
    · exact hU
  · exact hU

theorem deleteChildrenB_payload {α : Type} (d0 : α) (autoP : Bool) (n : NodeB α)
    (idxs : Fin 8 → Bool) : (deleteChildrenB d0 autoP n idxs).payload = n.payload := by
  unfold deleteChildrenB
  split
  · rfl
  · rw [deallocIfAll_payload, payload_withChildren, payload_withLeaf]

theorem pruneB_payload {α : Type} (H : Hooks α) (d0 : α) (autoP : Bool) (n : NodeB α)
    (idxs : Fin 8 → Bool) (depth : Nat) :
    (pruneB H d0 autoP n idxs depth).payload = n.payload := by
  unfold pruneB
  split
  · rw [deleteChildrenB_payload]
  · rfl

theorem updateNodeB_payload {α : Type} (H : Hooks α) (d0 : α) (autoP : Bool)
    (n : NodeB α) (idxs : Fin 8 → Bool) (depth : Nat) :
    (updateNodeB H d0 autoP n idxs depth).payload =
      fun i => if idxs i then H.updateH (childAt d0 n i).payload else n.payload i := by
  unfold updateNodeB
  rw [pruneB_payload, payload_withPayload]

theorem deleteChildrenB_leaf_mono {α : Type} {d0 : α} {autoP : Bool} {n : NodeB α}
    {idxs : Fin 8 → Bool} {i : Fin 8} (h : n.leaf i = true) :
    (deleteChildrenB d0 autoP n idxs).leaf i = true := by
  unfold deleteChildrenB
  split
  · exact h
  · rw [deallocIfAll_leaf, leaf_withChildren, leaf_withLeaf]
    simp [h]

theorem pruneB_leaf_mono {α : Type} {H : Hooks α} {d0 : α} {autoP : Bool}
    {n : NodeB α} {idxs : Fin 8 → Bool} {depth : Nat} {i : Fin 8}
    (h : n.leaf i = true) : (pruneB H d0 autoP n idxs depth).leaf i = true := by
  unfold pruneB
  split
  · exact deleteChildrenB_leaf_mono h
  · exact h

theorem updateNodeB_leaf_mono {α : Type} {H : Hooks α} {d0 : α} {autoP : Bool}
    {n : NodeB α} {idxs : Fin 8 → Bool} {depth : Nat} {i : Fin 8}
    (h : n.leaf i = true) : (updateNodeB H d0 autoP n idxs depth).leaf i = true := by
  unfold updateNodeB
  exact pruneB_leaf_mono (by rw [leaf_withPayload]; exact h)

theorem deleteChildrenB_leaf_other {α : Type} {d0 : α} {autoP : Bool} {n : NodeB α}
    {idxs : Fin 8 → Bool} {i : Fin 8} (h : idxs i = false) :
    (deleteChildrenB d0 autoP n idxs).leaf i = n.leaf i := by
  unfold deleteChildrenB
  split
  · rfl
  · rw [deallocIfAll_leaf, leaf_withChildren, leaf_withLeaf]
    simp [h]

theorem pruneB_leaf_other {α : Type} {H : Hooks α} {d0 : α} {autoP : Bool}
    {n : NodeB α} {idxs : Fin 8 → Bool} {depth : Nat} {i : Fin 8}
    (h : idxs i = false) : (pruneB H d0 autoP n idxs depth).leaf i = n.leaf i := by
  unfold pruneB
  split
  · exact deleteChildrenB_leaf_other (by simp [h])
  · rfl

theorem updateNodeB_leaf_other {α : Type} {H : Hooks α} {d0 : α} {autoP : Bool}
    {n : NodeB α} {idxs : Fin 8 → Bool} {depth : Nat} {i : Fin 8}
    (h : idxs i = false) :
    (updateNodeB H d0 autoP n idxs depth).leaf i = n.leaf i := by
  unfold updateNodeB
  rw [pruneB_leaf_other h, leaf_withPayload]

theorem deleteChildrenB_slot_keep {α : Type} {d0 : α} {autoP : Bool} {n : NodeB α}
    {idxs : Fin 8 → Bool} {blkU : Fin 8 → NodeB α} {i : Fin 8}
    (hU : (deleteChildrenB d0 autoP n idxs).children = some blkU)
    (hl : (deleteChildrenB d0 autoP n idxs).leaf i = false) :
    ∃ blkn, n.children = some blkn ∧ blkU i = blkn i ∧ n.leaf i = false := by
  unfold deleteChildrenB at hU hl
  by_cases hguard : anyb (fun i => idxs i && ! n.leaf i) = false
  · rw [if_pos hguard] at hU hl
    exact ⟨blkU, hU, rfl, hl⟩
  · rw [if_neg hguard] at hU hl
    have hU' := deallocIfAll_children_some hU
    rw [children_withChildren] at hU'
    rw [deallocIfAll_leaf, leaf_withChildren, leaf_withLeaf] at hl
    simp only [Bool.or_eq_false_iff] at hl
    rcases hch : n.children with _ | blkn
    · rw [hch] at hU'
      cases hU'
    · rw [hch] at hU'
      have hblk := Option.some.inj hU'
      refine ⟨blkn, rfl, ?_, hl.1⟩
      rw [← hblk]
      simp [hl.2]

theorem pruneB_slot_keep {α : Type} {H : Hooks α} {d0 : α} {autoP : Bool}
    {n : NodeB α} {idxs : Fin 8 → Bool} {depth : Nat} {blkU : Fin 8 → NodeB α}
    {i : Fin 8} (hU : (pruneB H d0 autoP n idxs depth).children = some blkU)
    (hl : (pruneB H d0 autoP n idxs depth).leaf i = false) :
    ∃ blkn, n.children = some blkn ∧ blkU i = blkn i ∧ n.leaf i = false := by
  unfold pruneB at hU hl
  by_cases hg : anyb (fun i => idxs i && collapsibleSlot H d0 depth n i) = true
  · rw [if_pos hg] at hU hl
    exact deleteChildrenB_slot_keep hU hl
  · rw [if_neg hg] at hU hl
    exact ⟨blkU, hU, rfl, hl⟩

theorem updateNodeB_slot_keep {α : Type} {H : Hooks α} {d0 : α} {autoP : Bool}
    {n : NodeB α} {idxs : Fin 8 → Bool} {depth : Nat} {blkU : Fin 8 → NodeB α}
    {i : Fin 8} (hU : (updateNodeB H d0 autoP n idxs depth).children = some blkU)
    (hl : (updateNodeB H d0 autoP n idxs depth).leaf i = false) :
    ∃ blkn, n.children = some blkn ∧ blkU i = blkn i ∧ n.leaf i = false := by
  unfold updateNodeB at hU hl
  obtain ⟨blkn, hch, hkeep, hlf⟩ := pruneB_slot_keep hU hl
  rw [children_withPayload] at hch
  rw [leaf_withPayload] at hlf
  exact ⟨blkn, hch, hkeep, hlf⟩

theorem anyb_false_at {g : Fin 8 → Bool} (h : anyb g = false) (i : Fin 8) :
    g i = false := by
  unfold anyb at h
  simp only [decide_eq_false_iff_not] at h
  cases hg : g i
  · rfl
  · exact absurd ⟨i, hg⟩ h

/-- `propagateModifiedRecurs` at an allocated block, with the child-block match
resolved. -/
theorem propModN_succ_some {α : Type} (H : Hooks α) (d0 : α) (autoP keep : Bool)
    (maxD d : Nat) (n : NodeB α) {blk : Fin 8 → NodeB α}
    (hch : n.children = some blk) :
    propModN H d0 autoP keep maxD (d + 1) n =
      if anyb (fun i => n.modified i && ! n.leaf i) = false then
        (if keep = false ∧ d + 1 ≤ maxD then n.withModified (fun _ => false) else n)
      else
        (if d + 1 ≤ maxD then
          (if keep then
            updateNodeB H d0 autoP
              (if d = 0 then
                (if keep then n else n.withChildren
                  (some (fun i => if n.modified i && ! n.leaf i then
                    (blk i).withModified (fun _ => false) else blk i)))
              else n.withChildren
                (some (fun i => if n.modified i && ! n.leaf i then
                  propModN H d0 autoP keep maxD d (blk i) else blk i)))
              (fun i => n.modified i && ! n.leaf i) (d + 1)
          else
            (updateNodeB H d0 autoP
              (if d = 0 then
                (if keep then n else n.withChildren
                  (some (fun i => if n.modified i && ! n.leaf i then
                    (blk i).withModified (fun _ => false) else blk i)))
              else n.withChildren
                (some (fun i => if n.modified i && ! n.leaf i then
                  propModN H d0 autoP keep maxD d (blk i) else blk i)))
              (fun i => n.modified i && ! n.leaf i) (d + 1)).withModified
              (fun _ => false))
        else
          (if d = 0 then
            (if keep then n else n.withChildren
              (some (fun i => if n.modified i && ! n.leaf i then
                (blk i).withModified (fun _ => false) else blk i)))
          else n.withChildren
            (some (fun i => if n.modified i && ! n.leaf i then
              propModN H d0 autoP keep maxD d (blk i) else blk i)))) := by
  rw [propModN_succ_eq, hch]

/-- `propagateModifiedRecurs` at a block with no child storage, with the match
resolved. -/
theorem propModN_succ_none {α : Type} (H : Hooks α) (d0 : α) (autoP keep : Bool)
    (maxD d : Nat) (n : NodeB α) (hch : n.children = none) :
    propModN H d0 autoP keep maxD (d + 1) n =
      if anyb (fun i => n.modified i && ! n.leaf i) = false then
        (if keep = false ∧ d + 1 ≤ maxD then n.withModified (fun _ => false) else n)
      else
        (if d + 1 ≤ maxD then
          (if keep then
            updateNodeB H d0 autoP
              (if d = 0 then (if keep then n else n.withChildren none)
               else n.withChildren none)
              (fun i => n.modified i && ! n.leaf i) (d + 1)
          else
            (updateNodeB H d0 autoP
              (if d = 0 then (if keep then n else n.withChildren none)
               else n.withChildren none)
              (fun i => n.modified i && ! n.leaf i) (d + 1)).withModified
              (fun _ => false))
        else
          (if d = 0 then (if keep then n else n.withChildren none)
           else n.withChildren none)) := by
  rw [propModN_succ_eq, hch]

theorem anyb_false_intro {g : Fin 8 → Bool} (h : ∀ i, g i = false) :
    anyb g = false := by
  unfold anyb
  simp only [decide_eq_false_iff_not]
  rintro ⟨i, hi⟩
  rw [h i] at hi
  cases hi

/-- `propagateModifiedRecurs<false>` with the depth inside `max_depth` leaves a
fully cleared and fully aggregated subtree. -/
theorem propModN_false_clean {α : Type} (H : Hooks α) (d0 : α) (autoP : Bool)
    (maxD : Nat) : ∀ (d : Nat) (n : NodeB α), WFs n → MUpB H (d + 1) n →
      d + 1 ≤ maxD →
      CleanB (d + 1) (propModN H d0 autoP false maxD (d + 1) n) ∧
      AggB H (d + 1) (propModN H d0 autoP false maxD (d + 1) n) := by
  intro d
  induction d with
  | zero =>
    intro n hw hmu hle
    rcases hch : n.children with _ | blk
    · rw [propModN_succ_none H d0 autoP false maxD 0 n hch]
      have hmp : anyb (fun i => n.modified i && ! n.leaf i) = false :=
        anyb_false_intro (fun i => by rw [WFs_children_none hw hch i]; simp)
      rw [if_pos hmp, if_pos ⟨rfl, hle⟩]
      constructor
      · refine CleanB_succ_intro (fun i => by rw [modified_withModified]) ?_
        intro blk2 hch2 i hl
        rw [children_withModified, hch] at hch2
        cases hch2
      · refine AggB_succ_intro ?_
        intro blk2 hch2 i hl
        rw [children_withModified, hch] at hch2
        cases hch2
    · rw [propModN_succ_some H d0 autoP false maxD 0 n hch]
      by_cases hmp : anyb (fun i => n.modified i && ! n.leaf i) = false
      · rw [if_pos hmp, if_pos ⟨rfl, hle⟩]
        constructor
        · refine CleanB_succ_intro (fun i => by rw [modified_withModified]) ?_
          intro blk2 hch2 i hl
          rw [children_withModified, hch] at hch2
          obtain rfl : blk = blk2 := Option.some.inj hch2
          rw [leaf_withModified] at hl
          have hmi : n.modified i = false := by
            simpa [hl] using anyb_false_at hmp i
          exact (MUpB_clean hmu hch hl hmi).1
        · refine AggB_succ_intro ?_
          intro blk2 hch2 i hl
          rw [children_withModified, hch] at hch2
          obtain rfl : blk = blk2 := Option.some.inj hch2
          rw [leaf_withModified] at hl
          rw [payload_withModified]
          have hmi : n.modified i = false := by
            simpa [hl] using anyb_false_at hmp i
          exact ⟨(MUpB_clean hmu hch hl hmi).2.1, (MUpB_clean hmu hch hl hmi).2.2⟩
      · rw [if_neg hmp, if_pos hle, if_neg Bool.false_ne_true, if_pos rfl,
          if_neg Bool.false_ne_true]
        set F := fun i => if n.modified i && ! n.leaf i then
          (blk i).withModified (fun _ => false) else blk i with hF
        set INNER := n.withChildren (some F) with hINNER
        have hIC : INNER.children = some F := by
          rw [hINNER, children_withChildren]
        have hFclean : ∀ i, n.leaf i = false → CleanB 0 (F i) := by
          intro i hli
          rw [hF]
          show CleanB 0 (if n.modified i && ! n.leaf i then
            (blk i).withModified (fun _ => false) else blk i)
          split
          · intro j
            rw [modified_withModified]
          · next hmpi =>
            have hmi : n.modified i = false := by
              rcases hm : n.modified i with _ | _
              · rfl
              · exact absurd (by rw [hm, hli]; rfl) hmpi
            exact (MUpB_clean hmu hch hli hmi).1
        have hFpay : ∀ i, n.leaf i = false →
            (if n.modified i && ! n.leaf i then
              H.updateH (childAt d0 INNER i).payload else INNER.payload i) =
              H.updateH ((F i).payload) := by
          intro i hli
          rw [childAt_of_children d0 hIC]
          split
          · rfl
          · next hmpi =>
            have hmi : n.modified i = false := by
              rcases hm : n.modified i with _ | _
              · rfl
              · exact absurd (by rw [hm, hli]; rfl) hmpi
            have hFi : F i = blk i := by
              rw [hF]
              show (if n.modified i && ! n.leaf i then
                (blk i).withModified (fun _ => false) else blk i) = blk i
              rw [if_neg hmpi]
            rw [hINNER, payload_withChildren, hFi]
            exact (MUpB_clean hmu hch hli hmi).2.1
        constructor
        · refine CleanB_succ_intro (fun i => by rw [modified_withModified]) ?_
          intro blkR hchR i hl
          rw [children_withModified] at hchR
          rw [leaf_withModified] at hl
          obtain ⟨blkI, hchI, hkeep, hlI⟩ := updateNodeB_slot_keep hchR hl
          rw [hIC] at hchI
          obtain rfl : F = blkI := Option.some.inj hchI
          rw [hINNER, leaf_withChildren] at hlI
          rw [hkeep]
          exact hFclean i hlI
        · refine AggB_succ_intro ?_
          intro blkR hchR i hl
          rw [children_withModified] at hchR
          rw [leaf_withModified] at hl
          obtain ⟨blkI, hchI, hkeep, hlI⟩ := updateNodeB_slot_keep hchR hl
          rw [hIC] at hchI
          obtain rfl : F = blkI := Option.some.inj hchI
          rw [hINNER, leaf_withChildren] at hlI
          refine ⟨?_, trivial⟩
          rw [payload_withModified]
          simp only [updateNodeB_payload]
          rw [hkeep]
          exact hFpay i hlI
  | succ d' ih =>
    intro n hw hmu hle
    rcases hch : n.children with _ | blk
    · rw [propModN_succ_none H d0 autoP false maxD (d' + 1) n hch]
      have hmp : anyb (fun i => n.modified i && ! n.leaf i) = false :=
        anyb_false_intro (fun i => by rw [WFs_children_none hw hch i]; simp)
      rw [if_pos hmp, if_pos ⟨rfl, hle⟩]
      constructor
      · refine CleanB_succ_intro (fun i => by rw [modified_withModified]) ?_
        intro blk2 hch2 i hl
        rw [children_withModified, hch] at hch2
        cases hch2
      · refine AggB_succ_intro ?_
        intro blk2 hch2 i hl
        rw [children_withModified, hch] at hch2
        cases hch2
    · rw [propModN_succ_some H d0 autoP false maxD (d' + 1) n hch]
      by_cases hmp : anyb (fun i => n.modified i && ! n.leaf i) = false
      · rw [if_pos hmp, if_pos ⟨rfl, hle⟩]
        constructor
        · refine CleanB_succ_intro (fun i => by rw [modified_withModified]) ?_
          intro blk2 hch2 i hl
          rw [children_withModified, hch] at hch2
          obtain rfl : blk = blk2 := Option.some.inj hch2
          rw [leaf_withModified] at hl
          have hmi : n.modified i = false := by
            simpa [hl] using anyb_false_at hmp i
          exact (MUpB_clean hmu hch hl hmi).1
        · refine AggB_succ_intro ?_
          intro blk2 hch2 i hl
          rw [children_withModified, hch] at hch2
          obtain rfl : blk = blk2 := Option.some.inj hch2
          rw [leaf_withModified] at hl
          rw [payload_withModified]
          have hmi : n.modified i = false := by
            simpa [hl] using anyb_false_at hmp i
          exact ⟨(MUpB_clean hmu hch hl hmi).2.1, (MUpB_clean hmu hch hl hmi).2.2⟩
      · rw [if_neg hmp, if_pos hle, if_neg Bool.false_ne_true,
          if_neg (by omega : ¬ d' + 1 = 0)]
        set G := fun i => if n.modified i && ! n.leaf i then
          propModN H d0 autoP false maxD (d' + 1) (blk i) else blk i with hG
        set INNER := n.withChildren (some G) with hINNER
        have hIC : INNER.children = some G := by
          rw [hINNER, children_withChildren]
        have hGgood : ∀ i, n.leaf i = false →
            CleanB (d' + 1) (G i) ∧ AggB H (d' + 1) (G i) := by
          intro i hli
          rw [hG]
          show CleanB (d' + 1) (if n.modified i && ! n.leaf i then
              propModN H d0 autoP false maxD (d' + 1) (blk i) else blk i) ∧
            AggB H (d' + 1) (if n.modified i && ! n.leaf i then
              propModN H d0 autoP false maxD (d' + 1) (blk i) else blk i)
          split
          · exact ih (blk i) (WFs_children_some hw hch i) (MUpB_child hmu hch hli)
              (by omega)
          · next hmpi =>
            have hmi : n.modified i = false := by
              rcases hm : n.modified i with _ | _
              · rfl
              · exact absurd (by rw [hm, hli]; rfl) hmpi
            exact ⟨(MUpB_clean hmu hch hli hmi).1, (MUpB_clean hmu hch hli hmi).2.2⟩
        have hGpay : ∀ i, n.leaf i = false →
            (if n.modified i && ! n.leaf i then
              H.updateH (childAt d0 INNER i).payload else INNER.payload i) =
              H.updateH ((G i).payload) := by
          intro i hli
          rw [childAt_of_children d0 hIC]
          split
          · rfl
          · next hmpi =>
            have hmi : n.modified i = false := by
              rcases hm : n.modified i with _ | _
              · rfl
              · exact absurd (by rw [hm, hli]; rfl) hmpi
            have hGi : G i = blk i := by
              rw [hG]
              show (if n.modified i && ! n.leaf i then
                propModN H d0 autoP false maxD (d' + 1) (blk i) else blk i) = blk i
              rw [if_neg hmpi]
            rw [hINNER, payload_withChildren, hGi]
            exact (MUpB_clean hmu hch hli hmi).2.1
        constructor
        · refine CleanB_succ_intro (fun i => by rw [modified_withModified]) ?_
          intro blkR hchR i hl
          rw [children_withModified] at hchR
          rw [leaf_withModified] at hl
          obtain ⟨blkI, hchI, hkeep, hlI⟩ := updateNodeB_slot_keep hchR hl
          rw [hIC] at hchI
          obtain rfl : G = blkI := Option.some.inj hchI
          rw [hINNER, leaf_withChildren] at hlI
          rw [hkeep]
          exact (hGgood i hlI).1
        · refine AggB_succ_intro ?_
          intro blkR hchR i hl
          rw [children_withModified] at hchR
          rw [leaf_withModified] at hl
          obtain ⟨blkI, hchI, hkeep, hlI⟩ := updateNodeB_slot_keep hchR hl
          rw [hIC] at hchI
          obtain rfl : G = blkI := Option.some.inj hchI
          rw [hINNER, leaf_withChildren] at hlI
          refine ⟨?_, ?_⟩
          · rw [payload_withModified]
            simp only [updateNodeB_payload]
            rw [hkeep]
            exact hGpay i hlI
          · rw [hkeep]
            exact (hGgood i hlI).2

/-- `propagateModifiedRecurs` preserves the propagation invariant for every
`keep_modified` and `max_depth`. -/
theorem propModN_mup {α : Type} (H : Hooks α) (d0 : α) (autoP keep : Bool)
    (maxD : Nat) : ∀ (d : Nat) (n : NodeB α), WFs n → MUpB H d n →
      MUpB H d (propModN H d0 autoP keep maxD d n) := by
  intro d
  induction d with
  | zero => intro n _ _; exact trivial
  | succ d ih =>
    intro n hw hmu
    rcases hch : n.children with _ | blk
    · rw [propModN_succ_none H d0 autoP keep maxD d n hch]
      by_cases hmp : anyb (fun i => n.modified i && ! n.leaf i) = false
      · rw [if_pos hmp]
        split
        · exact MUpB_none H _ (by rw [children_withModified]; exact hch)
        · exact hmu
      · exact absurd (anyb_false_intro fun i => by
          rw [WFs_children_none hw hch i]; simp) hmp
    · by_cases hmp : anyb (fun i => n.modified i && ! n.leaf i) = false
      · rw [propModN_succ_some H d0 autoP keep maxD d n hch, if_pos hmp]
        split
        · refine MUpB_succ_intro ?_
          intro blk2 hch2 i hl
          rw [children_withModified, hch] at hch2
          obtain rfl : blk = blk2 := Option.some.inj hch2
          rw [leaf_withModified] at hl
          have hmi : n.modified i = false := by
            simpa [hl] using anyb_false_at hmp i
          refine ⟨MUpB_child hmu hch hl, fun _ => ?_⟩
          rw [payload_withModified]
          exact MUpB_clean hmu hch hl hmi
        · exact hmu
      · by_cases hk : keep = true
        · subst hk
          rw [propModN_succ_some H d0 autoP true maxD d n hch, if_neg hmp]
          by_cases hle : d + 1 ≤ maxD
          · rw [if_pos hle, if_pos rfl]
            by_cases hd : d = 0
            · subst hd
              rw [if_pos rfl, if_pos rfl]
              refine MUpB_succ_intro ?_
              intro blkU hchU i hl
              obtain ⟨blkn, hchn, hkeep, hln⟩ := updateNodeB_slot_keep hchU hl
              rw [hch] at hchn
              obtain rfl : blk = blkn := Option.some.inj hchn
              refine ⟨trivial, fun hmf => ?_⟩
              rw [updateNodeB_modified] at hmf
              have hmpi : (n.modified i && ! n.leaf i) = false := by rw [hmf]; rfl
              rw [hkeep]
              refine ⟨(MUpB_clean hmu hch hln hmf).1, ?_, trivial⟩
              simp only [updateNodeB_payload]
              rw [if_neg (by rw [hmpi]; exact Bool.false_ne_true)]
              exact (MUpB_clean hmu hch hln hmf).2.1
            · obtain ⟨d2, rfl⟩ : ∃ k, d = k + 1 := ⟨d - 1, by omega⟩
              rw [if_neg (by omega)]
              set G := fun i => if n.modified i && ! n.leaf i then
                propModN H d0 autoP true maxD (d2 + 1) (blk i) else blk i with hG
              set INNER := n.withChildren (some G) with hINNER
              have hIC : INNER.children = some G := by
                rw [hINNER, children_withChildren]
              refine MUpB_succ_intro ?_
              intro blkU hchU i hl
              obtain ⟨blkI, hchI, hkeep, hlI⟩ := updateNodeB_slot_keep hchU hl
              rw [hIC] at hchI
              obtain rfl : G = blkI := Option.some.inj hchI
              rw [hINNER, leaf_withChildren] at hlI
              constructor
              · rw [hkeep, hG]
                show MUpB H (d2 + 1) (if n.modified i && ! n.leaf i then
                  propModN H d0 autoP true maxD (d2 + 1) (blk i) else blk i)
                split
                · exact ih (blk i) (WFs_children_some hw hch i)
                    (MUpB_child hmu hch hlI)
                · exact MUpB_child hmu hch hlI
              · intro hmf
                rw [updateNodeB_modified, hINNER, modified_withChildren] at hmf
                have hmpi : (n.modified i && ! n.leaf i) = false := by rw [hmf]; rfl
                have hGi : G i = blk i := by
                  rw [hG]
                  show (if n.modified i && ! n.leaf i then
                    propModN H d0 autoP true maxD (d2 + 1) (blk i) else blk i) = blk i
                  rw [if_neg (by rw [hmpi]; exact Bool.false_ne_true)]
                rw [hkeep, hGi]
                refine ⟨(MUpB_clean hmu hch hlI hmf).1, ?_,
                  (MUpB_clean hmu hch hlI hmf).2.2⟩
                simp only [updateNodeB_payload]
                rw [if_neg (by rw [hmpi]; exact Bool.false_ne_true)]
                rw [hINNER, payload_withChildren]
                exact (MUpB_clean hmu hch hlI hmf).2.1
          · rw [if_neg hle]
            by_cases hd : d = 0
            · subst hd
              rw [if_pos rfl, if_pos rfl]
              exact hmu
            · obtain ⟨d2, rfl⟩ : ∃ k, d = k + 1 := ⟨d - 1, by omega⟩
              rw [if_neg (by omega)]
              set G := fun i => if n.modified i && ! n.leaf i then
                propModN H d0 autoP true maxD (d2 + 1) (blk i) else blk i with hG
              refine MUpB_succ_intro ?_
              intro blkI hchI i hl
              rw [children_withChildren] at hchI
              obtain rfl : G = blkI := Option.some.inj hchI
              rw [leaf_withChildren] at hl
              constructor
              · rw [hG]
                show MUpB H (d2 + 1) (if n.modified i && ! n.leaf i then
                  propModN H d0 autoP true maxD (d2 + 1) (blk i) else blk i)
                split
                · exact ih (blk i) (WFs_children_some hw hch i)
                    (MUpB_child hmu hch hl)
                · exact MUpB_child hmu hch hl
              · intro hmf
                rw [modified_withChildren] at hmf
                have hmpi : (n.modified i && ! n.leaf i) = false := by rw [hmf]; rfl
                have hGi : G i = blk i := by
                  rw [hG]
                  show (if n.modified i && ! n.leaf i then
                    propModN H d0 autoP true maxD (d2 + 1) (blk i) else blk i) = blk i
                  rw [if_neg (by rw [hmpi]; exact Bool.false_ne_true)]
                rw [hGi, payload_withChildren]
                exact MUpB_clean hmu hch hl hmf
        · have hkf : keep = false := by
            cases keep
            · rfl
            · exact absurd rfl hk
          subst hkf
          by_cases hle : d + 1 ≤ maxD
          · obtain ⟨hc, ha⟩ := propModN_false_clean H d0 autoP maxD d n hw hmu hle
            exact MUpB_of_clean H (d + 1) _ hc ha
          · rw [propModN_succ_some H d0 autoP false maxD d n hch, if_neg hmp,
              if_neg hle]
            by_cases hd : d = 0
            · subst hd
              rw [if_pos rfl, if_neg Bool.false_ne_true]
              set F := fun i => if n.modified i && ! n.leaf i then
                (blk i).withModified (fun _ => false) else blk i with hF
              refine MUpB_succ_intro ?_
              intro blkI hchI i hl
              rw [children_withChildren] at hchI
              obtain rfl : F = blkI := Option.some.inj hchI
              rw [leaf_withChildren] at hl
              refine ⟨trivial, fun hmf => ?_⟩
              rw [modified_withChildren] at hmf
              have hmpi : (n.modified i && ! n.leaf i) = false := by rw [hmf]; rfl
              have hFi : F i = blk i := by
                rw [hF]
                show (if n.modified i && ! n.leaf i then
                  (blk i).withModified (fun _ => false) else blk i) = blk i
                rw [if_neg (by rw [hmpi]; exact Bool.false_ne_true)]
              rw [hFi, payload_withChildren]
              exact MUpB_clean hmu hch hl hmf
            · obtain ⟨d2, rfl⟩ : ∃ k, d = k + 1 := ⟨d - 1, by omega⟩
              rw [if_neg (by omega)]
              set G := fun i => if n.modified i && ! n.leaf i then
                propModN H d0 autoP false maxD (d2 + 1) (blk i) else blk i with hG
              refine MUpB_succ_intro ?_
              intro blkI hchI i hl
              rw [children_withChildren] at hchI
              obtain rfl : G = blkI := Option.some.inj hchI
              rw [leaf_withChildren] at hl
              constructor
              · rw [hG]
                show MUpB H (d2 + 1) (if n.modified i && ! n.leaf i then
                  propModN H d0 autoP false maxD (d2 + 1) (blk i) else blk i)
                split
                · exact ih (blk i) (WFs_children_some hw hch i)
                    (MUpB_child hmu hch hl)
                · exact MUpB_child hmu hch hl
              · intro hmf
                rw [modified_withChildren] at hmf
                have hmpi : (n.modified i && ! n.leaf i) = false := by rw [hmf]; rfl
                have hGi : G i = blk i := by
                  rw [hG]
                  show (if n.modified i && ! n.leaf i then
                    propModN H d0 autoP false maxD (d2 + 1) (blk i) else blk i) = blk i
                  rw [if_neg (by rw [hmpi]; exact Bool.false_ne_true)]
                rw [hGi, payload_withChildren]
                exact MUpB_clean hmu hch hl hmf

theorem setChildAt_payload {α : Type} (n : NodeB α) (i : Fin 8) (ch : NodeB α) :
    (setChildAt n i ch).payload = n.payload := by
  unfold setChildAt
  rcases hc : n.children with _ | blk
  · rfl
  · rw [payload_withChildren]

theorem createChildren_payload {α : Type} (H : Hooks α) (d0 : α) (n : NodeB α)
    (i : Fin 8) : (createChildren H d0 n i).payload = n.payload := by
  unfold createChildren
  by_cases hb : n.leaf i = true
  · rw [if_pos hb]
    simp
  · rw [if_neg hb]

theorem createChildren_leaf_other {α : Type} (H : Hooks α) (d0 : α) (n : NodeB α)
    {j i : Fin 8} (hne : i ≠ j) : (createChildren H d0 n j).leaf i = n.leaf i := by
  unfold createChildren
  by_cases hb : n.leaf j = true
  · rw [if_pos hb, leaf_withLeaf]
    exact upd_other _ _ hne
  · rw [if_neg hb]

theorem createChildren_entry_self {α : Type} {H : Hooks α} {d0 : α} {n : NodeB α}
    {j : Fin 8} {blkc : Fin 8 → NodeB α} (hb : n.leaf j = true)
    (hc : (createChildren H d0 n j).children = some blkc) :
    blkc j = fillNode H n j := by
  unfold createChildren at hc
  rw [if_pos hb, children_withLeaf, children_withChildren] at hc
  rw [← Option.some.inj hc]
  exact upd_same _ _ _

theorem createChildren_entry_leafFalse {α : Type} {H : Hooks α} {d0 : α}
    {n : NodeB α} {j i : Fin 8} {blkn blkc : Fin 8 → NodeB α}
    (hn : n.children = some blkn) (hb : n.leaf j = false)
    (hc : (createChildren H d0 n j).children = some blkc) : blkc i = blkn i := by
  unfold createChildren at hc
  rw [if_neg (by rw [hb]; exact Bool.false_ne_true), hn] at hc
  rw [← Option.some.inj hc]

theorem createChildren_entry_other {α : Type} {H : Hooks α} {d0 : α} {n : NodeB α}
    {j i : Fin 8} {blkn blkc : Fin 8 → NodeB α} (hn : n.children = some blkn)
    (hc : (createChildren H d0 n j).children = some blkc) (hne : i ≠ j) :
    blkc i = blkn i := by
  unfold createChildren at hc
  by_cases hb : n.leaf j = true
  · rw [if_pos hb, children_withLeaf, children_withChildren, hn] at hc
    rw [← Option.some.inj hc]
    exact upd_other _ _ hne
  · rw [if_neg hb, hn] at hc
    rw [← Option.some.inj hc]

/-- `applyAllRecurs` at depth 1, written out. -/
theorem applyAllRecurs_one_eq {α : Type} (H : Hooks α) (d0 : α) (f : α → α)
    (f2 : (Fin 8 → α) → Fin 8 → α) (ind : Fin 8 → Bool) (n : NodeB α) :
    applyAllRecurs H d0 f f2 1 ind n = n.withChildren (some (fun i =>
      if ind i then ((childAt d0 n i).withPayload
        (f2 (childAt d0 n i).payload)).withModified (fun _ => true)
      else childAt d0 n i)) := rfl

/-- `applyAllRecurs` at depth `d + 2`, written out. -/
theorem applyAllRecurs_two_eq {α : Type} (H : Hooks α) (d0 : α) (f : α → α)
    (f2 : (Fin 8 → α) → Fin 8 → α) (ind : Fin 8 → Bool) (d : Nat) (n : NodeB α) :
    applyAllRecurs H d0 f f2 (d + 2) ind n = n.withChildren (some (fun i =>
      if ind i then
        (if allb (childAt d0 n i).leaf then
          (childAt d0 n i).withPayload (f2 (childAt d0 n i).payload)
         else applyAllRecurs H d0 f f2 (d + 1) (fun j => ! (childAt d0 n i).leaf j)
           ((childAt d0 n i).withPayload (fun j => if (childAt d0 n i).leaf j then
             f ((childAt d0 n i).payload j)
             else (childAt d0 n i).payload j))).withModified (fun _ => true)
      else childAt d0 n i)) := rfl

theorem MUpB_withPayload {α : Type} {H : Hooks α} {d : Nat} {n : NodeB α}
    (hmu : MUpB H d n) (p' : Fin 8 → α)
    (hp : ∀ i, n.leaf i = false → p' i = n.payload i) :
    MUpB H d (n.withPayload p') := by
  cases d with
  | zero => exact trivial
  | succ d =>
    refine MUpB_succ_intro ?_
    intro blk hch i hl
    rw [children_withPayload] at hch
    rw [leaf_withPayload] at hl
    refine ⟨MUpB_child hmu hch hl, fun hmf => ?_⟩
    rw [modified_withPayload] at hmf
    rw [payload_withPayload, hp i hl]
    exact MUpB_clean hmu hch hl hmf

theorem MUpB_mark_all {α : Type} {H : Hooks α} {d : Nat} {x : NodeB α}
    (h : ∀ blk, x.children = some blk → ∀ i, x.leaf i = false → MUpB H d (blk i)) :
    MUpB H (d + 1) (x.withModified (fun _ => true)) := by
  refine MUpB_succ_intro ?_
  intro blk hch i hl
  rw [children_withModified] at hch
  rw [leaf_withModified] at hl
  refine ⟨h blk hch i hl, fun hmf => ?_⟩
  rw [modified_withModified] at hmf
  cases hmf

/-- `applyAllRecurs` preserves the propagation invariant, whatever the caller
then stores in the block's own modified bits, as long as touched slots are
marked. -/
theorem applyAllRecurs_mup {α : Type} (H : Hooks α) (d0 : α) (f : α → α)
    (f2 : (Fin 8 → α) → Fin 8 → α) :
    ∀ (d : Nat) (ind : Fin 8 → Bool) (n : NodeB α), WFs n → MUpB H (d + 1) n →
      ∀ m' : Fin 8 → Bool, (∀ i, ind i = true → m' i = true) →
      (∀ i, ind i = false → m' i = true ∨ m' i = n.modified i) →
      MUpB H (d + 1) ((applyAllRecurs H d0 f f2 (d + 1) ind n).withModified m') := by
  intro d
  induction d with
  | zero =>
    intro ind n hw hmu m' h1 h2
    rw [show (0 : Nat) + 1 = 1 from rfl, applyAllRecurs_one_eq]
    refine MUpB_succ_intro ?_
    intro blkI hchI i hl
    rw [children_withModified, children_withChildren] at hchI
    rw [leaf_withModified, leaf_withChildren] at hl
    refine ⟨trivial, fun hmf => ?_⟩
    rw [modified_withModified] at hmf
    have hind : ind i = false := by
      cases hif : ind i
      · rfl
      · rw [h1 i hif] at hmf
        cases hmf
    have hmi : n.modified i = false := by
      rcases h2 i hind with h | h
      · rw [h] at hmf
        cases hmf
      · rw [← h]
        exact hmf
    rcases hchn : n.children with _ | blkn
    · rw [WFs_children_none hw hchn i] at hl
      cases hl
    · have hblkI : blkI i = blkn i := by
        rw [← Option.some.inj hchI]
        show (if ind i then ((childAt d0 n i).withPayload
          (f2 (childAt d0 n i).payload)).withModified (fun _ => true)
          else childAt d0 n i) = blkn i
        rw [if_neg (by rw [hind]; exact Bool.false_ne_true),
          childAt_of_children d0 hchn]
      rw [hblkI]
      refine ⟨(MUpB_clean hmu hchn hl hmi).1, ?_, (MUpB_clean hmu hchn hl hmi).2.2⟩
      rw [payload_withModified, payload_withChildren]
      exact (MUpB_clean hmu hchn hl hmi).2.1
  | succ d2 ih =>
    intro ind n hw hmu m' h1 h2
    rw [show d2 + 1 + 1 = d2 + 2 from rfl, applyAllRecurs_two_eq]
    refine MUpB_succ_intro ?_
    intro blkI hchI i hl
    rw [children_withModified, children_withChildren] at hchI
    rw [leaf_withModified, leaf_withChildren] at hl
    rcases hchn : n.children with _ | blkn
    · rw [WFs_children_none hw hchn i] at hl
      cases hl
    · constructor
      · have hblkI : blkI i = if ind i then
            (if allb (childAt d0 n i).leaf then
              (childAt d0 n i).withPayload (f2 (childAt d0 n i).payload)
             else applyAllRecurs H d0 f f2 (d2 + 1)
               (fun j => ! (childAt d0 n i).leaf j)
               ((childAt d0 n i).withPayload
                 (fun j => if (childAt d0 n i).leaf j then
                   f ((childAt d0 n i).payload j)
                   else (childAt d0 n i).payload j))).withModified (fun _ => true)
            else childAt d0 n i := by
          rw [← Option.some.inj hchI]
        rw [hblkI]
        by_cases hif : ind i = true
        · rw [if_pos hif]
          split
          · next hallb =>
            refine MUpB_mark_all ?_
            intro blk hch j hlj
            rw [children_withPayload] at hch
            rw [leaf_withPayload] at hlj
            rw [of_decide_eq_true hallb j] at hlj
            cases hlj
          · have hmuch : MUpB H (d2 + 1) (childAt d0 n i) := by
              rw [childAt_of_children d0 hchn]
              exact MUpB_child hmu hchn hl
            exact ih (fun j => ! (childAt d0 n i).leaf j) _
              (WFs_withPayload (WFs_childAt hw d0 i) _)
              (MUpB_withPayload hmuch _ (fun j hlj => by simp [hlj]))
              (fun _ => true) (fun _ _ => rfl) (fun j _ => Or.inl rfl)
        · rw [if_neg hif, childAt_of_children d0 hchn]
          exact MUpB_child hmu hchn hl
      · intro hmf
        rw [modified_withModified] at hmf
        have hind : ind i = false := by
          cases hif : ind i
          · rfl
          · rw [h1 i hif] at hmf
            cases hmf
        have hmi : n.modified i = false := by
          rcases h2 i hind with h | h
          · rw [h] at hmf
            cases hmf
          · rw [← h]
            exact hmf
        have hblkI : blkI i = blkn i := by
          rw [← Option.some.inj hchI]
          show (if ind i then
            (if allb (childAt d0 n i).leaf then
              (childAt d0 n i).withPayload (f2 (childAt d0 n i).payload)
             else applyAllRecurs H d0 f f2 (d2 + 1)
               (fun j => ! (childAt d0 n i).leaf j)
               ((childAt d0 n i).withPayload
                 (fun j => if (childAt d0 n i).leaf j then
                   f ((childAt d0 n i).payload j)
                   else (childAt d0 n i).payload j))).withModified (fun _ => true)
            else childAt d0 n i) = blkn i
          rw [if_neg (by rw [hind]; exact Bool.false_ne_true),
            childAt_of_children d0 hchn]
        rw [hblkI]
        refine ⟨(MUpB_clean hmu hchn hl hmi).1, ?_, (MUpB_clean hmu hchn hl hmi).2.2⟩
        rw [payload_withModified, payload_withChildren]
        exact (MUpB_clean hmu hchn hl hmi).2.1

theorem applyAllRecurs_modified {α : Type} (H : Hooks α) (d0 : α) (f : α → α)
    (f2 : (Fin 8 → α) → Fin 8 → α) (ind : Fin 8 → Bool) (d : Nat) (n : NodeB α) :
    (applyAllRecurs H d0 f f2 (d + 1) ind n).modified = n.modified := by
  cases d with
  | zero =>
    rw [show (0 : Nat) + 1 = 1 from rfl, applyAllRecurs_one_eq, modified_withChildren]
  | succ d2 =>
    rw [show d2 + 1 + 1 = d2 + 2 from rfl, applyAllRecurs_two_eq,
      modified_withChildren]

/-- `apply`'s descent preserves the propagation invariant. -/
theorem applyA_mup {α : Type} (H : Hooks α) (d0 : α) (f : α → α)
    (f2 : (Fin 8 → α) → Fin 8 → α) (idx : Nat → Fin 8) (cdepth : Nat) :
    ∀ (d : Nat) (n : NodeB α), WFs n → MUpB H d n →
      MUpB H d (applyA H d0 f f2 idx cdepth d n) := by
  intro d
  induction d with
  | zero => intro n _ _; exact trivial
  | succ d ih =>
    intro n hw hmu
    simp only [applyA]
    by_cases ht : max cdepth 1 = d + 1
    · rw [if_pos ht]
      by_cases h0 : cdepth = 0
      · rw [if_pos h0]
        have hd0 : d = 0 := by omega
        subst hd0
        set N := createChildren H d0 n (idx 1) with hN
        set n2 := N.withModified (upd N.modified (idx 1) true) with hn2
        set ch := childAt d0 n2 (idx 1) with hchdef
        set ch1 := ch.withPayload (upd ch.payload (idx 0) (f (ch.payload (idx 0))))
          with hch1
        set X := ch1.withModified (upd ch1.modified (idx 0) true) with hX
        have hsome : n2.children.isSome = true := by
          rw [hn2, children_withModified, hN]
          exact createChildren_children_isSome hw H d0 (idx 1)
        unfold setChildAt
        rcases hch3 : n2.children with _ | blk2
        · rw [hch3] at hsome
          cases hsome
        · have hN2 : N.children = some blk2 := by
            rw [← hch3, hn2, children_withModified]
          rw [hN] at hN2
          refine MUpB_succ_intro ?_
          intro blkI hchI i hl
          rw [children_withChildren] at hchI
          rw [leaf_withChildren] at hl
          refine ⟨trivial, fun hmf => ?_⟩
          rw [modified_withChildren] at hmf
          have hne : i ≠ idx 1 := by
            intro he
            rw [hn2, modified_withModified, he, upd_same] at hmf
            cases hmf
          have hmi : n.modified i = false := by
            rw [hn2, modified_withModified, upd_other _ _ hne, hN,
              createChildren_modified] at hmf
            exact hmf
          have hlf : n.leaf i = false := by
            rw [hn2, leaf_withModified, hN, createChildren_leaf_other H d0 n hne] at hl
            exact hl
          rcases hchn : n.children with _ | blkn
          · rw [WFs_children_none hw hchn i] at hlf
            cases hlf
          · have hentry : blk2 i = blkn i := by
              rcases hLA : n.leaf (idx 1) with _ | _
              · exact createChildren_entry_leafFalse hchn hLA hN2
              · exact createChildren_entry_other hchn hN2 hne
            have hblkIi : blkI i = blk2 i := by
              rw [← Option.some.inj hchI]
              exact upd_other _ _ hne
            rw [hblkIi, hentry]
            refine ⟨(MUpB_clean hmu hchn hlf hmi).1, ?_,
              (MUpB_clean hmu hchn hlf hmi).2.2⟩
            rw [payload_withChildren, hn2, payload_withModified, hN,
              createChildren_payload]
            exact (MUpB_clean hmu hchn hlf hmi).2.1
      · rw [if_neg h0]
        by_cases hleaf : n.leaf (idx (d + 1)) = true
        · rw [if_pos hleaf]
          refine MUpB_succ_intro ?_
          intro blkI hchI i hl
          rw [children_withModified, children_withPayload] at hchI
          rw [leaf_withModified, leaf_withPayload] at hl
          refine ⟨MUpB_child hmu hchI hl, fun hmf => ?_⟩
          rw [modified_withModified] at hmf
          have hne : i ≠ idx (d + 1) := by
            intro he
            rw [he, upd_same] at hmf
            cases hmf
          rw [upd_other _ _ hne] at hmf
          have hpay : ((n.withPayload (upd n.payload (idx (d + 1))
              (f (n.payload (idx (d + 1)))))).withModified
              (upd n.modified (idx (d + 1)) true)).payload i = n.payload i := by
            rw [payload_withModified, payload_withPayload, upd_other _ _ hne]
          rw [hpay]
          exact MUpB_clean hmu hchI hl hmf
        · rw [if_neg hleaf]
          refine applyAllRecurs_mup H d0 f f2 d _ n hw hmu _ ?_ ?_
          · intro i hif
            have hieq : i = idx (d + 1) := by simpa using hif
            rw [hieq, upd_same]
          · intro i hif
            have hine : i ≠ idx (d + 1) := by simpa using hif
            right
            rw [upd_other _ _ hine, applyAllRecurs_modified]
    · rw [if_neg ht]
      set N := createChildren H d0 n (idx (d + 1)) with hN
      set n2 := N.withModified (upd N.modified (idx (d + 1)) true) with hn2
      set R := applyA H d0 f f2 idx cdepth d (childAt d0 n2 (idx (d + 1))) with hR
      have hsome : n2.children.isSome = true := by
        rw [hn2, children_withModified, hN]
        exact createChildren_children_isSome hw H d0 (idx (d + 1))
      have hwn2 : WFs n2 := by
        rw [hn2, hN]
        exact WFs_withModified (WFs_createChildren hw H d0 _) _
      unfold setChildAt
      rcases hch3 : n2.children with _ | blk2
      · rw [hch3] at hsome
        cases hsome
      · have hN2 : N.children = some blk2 := by
          rw [← hch3, hn2, children_withModified]
        rw [hN] at hN2
        refine MUpB_succ_intro ?_
        intro blkI hchI i hl
        rw [children_withChildren] at hchI
        rw [leaf_withChildren] at hl
        by_cases hiA : i = idx (d + 1)
        · subst hiA
          constructor
          · have hblkA : blkI (idx (d + 1)) = R := by
              rw [← Option.some.inj hchI]
              exact upd_same _ _ _
            rw [hblkA, hR]
            refine ih _ (WFs_childAt hwn2 d0 _) ?_
            rw [childAt_of_children d0 hch3]
            rcases hLA : n.leaf (idx (d + 1)) with _ | _
            · rcases hchn : n.children with _ | blkn
              · rw [WFs_children_none hw hchn (idx (d + 1))] at hLA
                cases hLA
              · rw [createChildren_entry_leafFalse hchn hLA hN2]
                exact MUpB_child hmu hchn hLA
            · rw [createChildren_entry_self hLA hN2]
              exact MUpB_none H d (fillNode_children H n _)
          · intro hmf
            rw [modified_withChildren, hn2, modified_withModified, upd_same] at hmf
            cases hmf
        · have hlf : n.leaf i = false := by
            rw [hn2, leaf_withModified, hN, createChildren_leaf_other H d0 n hiA] at hl
            exact hl
          rcases hchn : n.children with _ | blkn
          · rw [WFs_children_none hw hchn i] at hlf
            cases hlf
          · have hblkIi : blkI i = blk2 i := by
              rw [← Option.some.inj hchI]
              exact upd_other _ _ hiA
            constructor
            · rw [hblkIi, createChildren_entry_other hchn hN2 hiA]
              exact MUpB_child hmu hchn hlf
            · intro hmf
              rw [modified_withChildren, hn2, modified_withModified,
                upd_other _ _ hiA, hN, createChildren_modified] at hmf
              rw [hblkIi, createChildren_entry_other hchn hN2 hiA]
              refine ⟨(MUpB_clean hmu hchn hlf hmf).1, ?_,
                (MUpB_clean hmu hchn hlf hmf).2.2⟩
              rw [payload_withChildren, hn2, payload_withModified, hN,
                createChildren_payload]
              exact (MUpB_clean hmu hchn hlf hmf).2.1

theorem setChildAt_of_children {α : Type} {n : NodeB α} {blk : Fin 8 → NodeB α}
    (h : n.children = some blk) (i : Fin 8) (x : NodeB α) :
    setChildAt n i x = n.withChildren (some (upd blk i x)) := by
  unfold setChildAt
  rw [h]

theorem setChildAt_of_none {α : Type} {n : NodeB α} (h : n.children = none)
    (i : Fin 8) (x : NodeB α) : setChildAt n i x = n := by
  unfold setChildAt
  rw [h]

theorem applyAllRecurs_leaf {α : Type} (H : Hooks α) (d0 : α) (f : α → α)
    (f2 : (Fin 8 → α) → Fin 8 → α) (ind : Fin 8 → Bool) (d : Nat) (n : NodeB α) :
    (applyAllRecurs H d0 f f2 (d + 1) ind n).leaf = n.leaf := by
  cases d with
  | zero =>
    rw [show (0 : Nat) + 1 = 1 from rfl, applyAllRecurs_one_eq, leaf_withChildren]
  | succ d2 =>
    rw [show d2 + 1 + 1 = d2 + 2 from rfl, applyAllRecurs_two_eq, leaf_withChildren]

/-- `apply`'s descent changes neither the modified nor the leaf bit of any
slot of the entry block other than the one it descends through. -/
theorem applyA_top_sides {α : Type} (H : Hooks α) (d0 : α) (f : α → α)
    (f2 : (Fin 8 → α) → Fin 8 → α) (idx : Nat → Fin 8) (cdepth d : Nat)
    (n : NodeB α) (j : Fin 8) (hj : j ≠ idx (d + 1)) :
    (applyA H d0 f f2 idx cdepth (d + 1) n).modified j = n.modified j ∧
    (applyA H d0 f f2 idx cdepth (d + 1) n).leaf j = n.leaf j := by
  simp only [applyA]
  by_cases ht : max cdepth 1 = d + 1
  · rw [if_pos ht]
    by_cases h0 : cdepth = 0
    · rw [if_pos h0]
      constructor
      · rw [setChildAt_modified, modified_withModified, upd_other _ _ hj,
          createChildren_modified]
      · rw [setChildAt_leaf, leaf_withModified, createChildren_leaf_other H d0 n hj]
    · rw [if_neg h0]
      by_cases hleaf : n.leaf (idx (d + 1)) = true
      · rw [if_pos hleaf]
        constructor
        · rw [modified_withModified, upd_other _ _ hj]
        · rw [leaf_withModified, leaf_withPayload]
      · rw [if_neg hleaf]
        constructor
        · rw [modified_withModified, upd_other _ _ hj, applyAllRecurs_modified]
        · rw [leaf_withModified, applyAllRecurs_leaf]
  · rw [if_neg ht]
    constructor
    · rw [setChildAt_modified, modified_withModified, upd_other _ _ hj,
        createChildren_modified]
    · rw [setChildAt_leaf, leaf_withModified, createChildren_leaf_other H d0 n hj]

/-- Every in-bounds code has slot index 0 at the root depth. -/
theorem codeIdxF_root_zero (c : Code) (d : Nat) (hc : c.code_ < 2 ^ (3 * d + 5)) :
    codeIdxF c d = 0 := by
  apply Fin.val_injective
  show (c.code_ >>> (3 * d + 5)) &&& 0x7 = 0
  rw [Nat.shiftRight_eq_div_pow, Nat.div_eq_of_lt hc]
  rfl

/-- The root block uses only slot 0 (`rootIndex()`); the other seven slots keep
their initial state: unmodified leaves. -/
def RootSlots {α : Type} (T : NodeB α) : Prop :=
  ∀ i : Fin 8, i ≠ 0 → T.modified i = false ∧ T.leaf i = true

theorem RootSlots_default {α : Type} (d0 : α) : RootSlots (defaultNode d0) :=
  fun _ _ => ⟨rfl, rfl⟩

theorem applyA_rootslots {α : Type} (H : Hooks α) (d0 : α) (f : α → α)
    (f2 : (Fin 8 → α) → Fin 8 → α) (idx : Nat → Fin 8) (cdepth d : Nat)
    (n : NodeB α) (hroot : RootSlots n) (hidx : idx (d + 1) = 0) :
    RootSlots (applyA H d0 f f2 idx cdepth (d + 1) n) := by
  intro j hj
  have hj' : j ≠ idx (d + 1) := by
    rw [hidx]
    exact hj
  obtain ⟨h1, h2⟩ := applyA_top_sides H d0 f f2 idx cdepth d n j hj'
  rw [h1, h2]
  exact hroot j hj

theorem propModEntry_rootslots {α : Type} (H : Hooks α) (d0 : α) (autoP : Bool)
    (T : NodeB α) (depth maxD : Nat) (keep : Bool) (hroot : RootSlots T) :
    RootSlots (propModEntry H d0 autoP T 0 depth keep maxD) := by
  rw [propModEntry_eq]
  intro j hj
  have hmodU : ∀ (m : NodeB α) (dep : Nat),
      (updateNodeB H d0 autoP m (fun j : Fin 8 => j == 0) dep).modified j =
        m.modified j := fun m dep => by rw [updateNodeB_modified]
  have hleafU : ∀ (m : NodeB α) (dep : Nat),
      (updateNodeB H d0 autoP m (fun j : Fin 8 => j == 0) dep).leaf j = m.leaf j :=
    fun m dep => updateNodeB_leaf_other (by simp [hj])
  by_cases hm0 : T.modified 0 = false
  · rw [if_pos hm0]
    exact hroot j hj
  · rw [if_neg hm0]
    by_cases hd1 : depth = 1
    · rw [if_pos hd1]
      by_cases hdm : depth ≤ maxD
      · rw [if_pos hdm]
        split
        · constructor
          · rw [hmodU]
            exact (hroot j hj).1
          · rw [hleafU]
            exact (hroot j hj).2
        · constructor
          · rw [modified_withModified, upd_other _ _ hj, hmodU, setChildAt_modified]
            exact (hroot j hj).1
          · rw [leaf_withModified, hleafU, setChildAt_leaf]
            exact (hroot j hj).2
      · rw [if_neg hdm]
        split
        · exact hroot j hj
        · rw [setChildAt_modified, setChildAt_leaf]
          exact hroot j hj
    · rw [if_neg hd1]
      by_cases hdm : depth ≤ maxD
      · rw [if_pos hdm]
        split
        · constructor
          · rw [hmodU, setChildAt_modified]
            exact (hroot j hj).1
          · rw [hleafU, setChildAt_leaf]
            exact (hroot j hj).2
        · constructor
          · rw [modified_withModified, upd_other _ _ hj, hmodU, setChildAt_modified]
            exact (hroot j hj).1
          · rw [leaf_withModified, hleafU, setChildAt_leaf]
            exact (hroot j hj).2
      · rw [if_neg hdm]
        rw [setChildAt_modified, setChildAt_leaf]
        exact hroot j hj

/-- The 5-argument `propagateModified` at the root entry preserves the
propagation invariant for every `keep_modified` and `max_depth`. -/
theorem propModEntry_mup {α : Type} (H : Hooks α) (d0 : α) (autoP : Bool)
    (T : NodeB α) (depth maxD : Nat) (keep : Bool) (hw : WFs T)
    (hmu : MUpB H depth T) (hd2 : 2 ≤ depth) :
    MUpB H depth (propModEntry H d0 autoP T 0 depth keep maxD) := by
  obtain ⟨d2, rfl⟩ : ∃ k, depth = k + 2 := ⟨depth - 2, by omega⟩
  rw [propModEntry_eq]
  by_cases hm0 : T.modified 0 = false
  · rw [if_pos hm0]
    exact hmu
  · rw [if_neg hm0, if_neg (show ¬ d2 + 2 = 1 by omega)]
    rcases hchT : T.children with _ | blkT
    · rw [setChildAt_of_none hchT]
      by_cases hdm : d2 + 2 ≤ maxD
      · rw [if_pos hdm]
        have hUmu : MUpB H (d2 + 2)
            (updateNodeB H d0 autoP T (fun j => j == 0) (d2 + 2)) := by
          refine MUpB_succ_intro ?_
          intro blkU hchU i hl
          obtain ⟨blkn, hchn, _, _⟩ := updateNodeB_slot_keep hchU hl
          rw [hchT] at hchn
          cases hchn
        split
        · exact hUmu
        · refine MUpB_succ_intro ?_
          intro blkU hchU i hl
          rw [children_withModified] at hchU
          rw [leaf_withModified] at hl
          obtain ⟨blkn, hchn, _, _⟩ := updateNodeB_slot_keep hchU hl
          rw [hchT] at hchn
          cases hchn
      · rw [if_neg hdm]
        exact hmu
    · set P := propModN H d0 autoP keep maxD (d2 + 2 - 1) (childAt d0 T 0) with hP
      have hN1 : setChildAt T 0 P = T.withChildren (some (upd blkT 0 P)) :=
        setChildAt_of_children hchT 0 P
      rw [hN1]
      rcases hTl0 : T.leaf 0 with _ | _
      · -- the root slot is an inner slot: its subtree is really propagated
        have hPmu : MUpB H (d2 + 1) P := by
          rw [hP, childAt_of_children d0 hchT]
          exact propModN_mup H d0 autoP keep maxD (d2 + 2 - 1) (blkT 0)
            (WFs_children_some hw hchT 0) (MUpB_child hmu hchT hTl0)
        by_cases hdm : d2 + 2 ≤ maxD
        · rw [if_pos hdm]
          have hUmu : MUpB H (d2 + 2) (updateNodeB H d0 autoP
              (T.withChildren (some (upd blkT 0 P))) (fun j => j == 0) (d2 + 2)) := by
            refine MUpB_succ_intro ?_
            intro blkU hchU i hl
            obtain ⟨blkN1, hchN1, hkeep, hlN1⟩ := updateNodeB_slot_keep hchU hl
            rw [children_withChildren] at hchN1
            obtain rfl : upd blkT 0 P = blkN1 := Option.some.inj hchN1
            rw [leaf_withChildren] at hlN1
            by_cases hi : i = 0
            · subst hi
              constructor
              · rw [hkeep, upd_same]
                exact hPmu
              · intro hmf
                rw [updateNodeB_modified, modified_withChildren] at hmf
                exact absurd hmf hm0
            · constructor
              · rw [hkeep, upd_other _ _ hi]
                exact MUpB_child hmu hchT hlN1
              · intro hmf
                rw [updateNodeB_modified, modified_withChildren] at hmf
                rw [hkeep, upd_other _ _ hi]
                refine ⟨(MUpB_clean hmu hchT hlN1 hmf).1, ?_,
                  (MUpB_clean hmu hchT hlN1 hmf).2.2⟩
                simp only [updateNodeB_payload]
                rw [if_neg (by simp [hi]), payload_withChildren]
                exact (MUpB_clean hmu hchT hlN1 hmf).2.1
          split
          · exact hUmu
          · next hkf =>
            have hkeep0 : keep = false := by
              cases keep
              · rfl
              · exact absurd rfl hkf
            subst hkeep0
            obtain ⟨hPc, hPa⟩ : CleanB (d2 + 1) P ∧ AggB H (d2 + 1) P := by
              rw [hP, childAt_of_children d0 hchT]
              exact propModN_false_clean H d0 autoP maxD d2 (blkT 0)
                (WFs_children_some hw hchT 0) (MUpB_child hmu hchT hTl0) (by omega)
            refine MUpB_succ_intro ?_
            intro blkU hchU i hl
            rw [children_withModified] at hchU
            rw [leaf_withModified] at hl
            obtain ⟨blkN1, hchN1, hkeep, hlN1⟩ := updateNodeB_slot_keep hchU hl
            rw [children_withChildren] at hchN1
            obtain rfl : upd blkT 0 P = blkN1 := Option.some.inj hchN1
            rw [leaf_withChildren] at hlN1
            by_cases hi : i = 0
            · subst hi
              refine ⟨?_, fun _ => ?_⟩
              · rw [hkeep, upd_same]
                exact hPmu
              · rw [hkeep, upd_same]
                refine ⟨hPc, ?_, hPa⟩
                rw [payload_withModified]
                simp only [updateNodeB_payload]
                rw [if_pos (show ((0 : Fin 8) == 0) = true by decide),
                  childAt_of_children d0 (children_withChildren T _), upd_same]
            · constructor
              · rw [hkeep, upd_other _ _ hi]
                exact MUpB_child hmu hchT hlN1
              · intro hmf
                rw [modified_withModified, upd_other _ _ hi, updateNodeB_modified,
                  modified_withChildren] at hmf
                rw [hkeep, upd_other _ _ hi]
                refine ⟨(MUpB_clean hmu hchT hlN1 hmf).1, ?_,
                  (MUpB_clean hmu hchT hlN1 hmf).2.2⟩
                rw [payload_withModified]
                simp only [updateNodeB_payload]
                rw [if_neg (by simp [hi]), payload_withChildren]
                exact (MUpB_clean hmu hchT hlN1 hmf).2.1
        · rw [if_neg hdm]
          refine MUpB_succ_intro ?_
          intro blkI hchI i hl
          rw [children_withChildren] at hchI
          obtain rfl : upd blkT 0 P = blkI := Option.some.inj hchI
          rw [leaf_withChildren] at hl
          by_cases hi : i = 0
          · subst hi
            refine ⟨?_, fun hmf => ?_⟩
            · rw [upd_same]
              exact hPmu
            · rw [modified_withChildren] at hmf
              exact absurd hmf hm0
          · refine ⟨?_, fun hmf => ?_⟩
            · rw [upd_other _ _ hi]
              exact MUpB_child hmu hchT hl
            · rw [modified_withChildren] at hmf
              rw [upd_other _ _ hi, payload_withChildren]
              exact MUpB_clean hmu hchT hl hmf
      · -- the root slot is marked modified but is a leaf: nothing below it is
        -- visible, and the result's slot 0 stays a leaf
        by_cases hdm : d2 + 2 ≤ maxD
        · rw [if_pos hdm]
          have hUmu : MUpB H (d2 + 2) (updateNodeB H d0 autoP
              (T.withChildren (some (upd blkT 0 P))) (fun j => j == 0) (d2 + 2)) := by
            refine MUpB_succ_intro ?_
            intro blkU hchU i hl
            obtain ⟨blkN1, hchN1, hkeep, hlN1⟩ := updateNodeB_slot_keep hchU hl
            rw [children_withChildren] at hchN1
            obtain rfl : upd blkT 0 P = blkN1 := Option.some.inj hchN1
            rw [leaf_withChildren] at hlN1
            by_cases hi : i = 0
            · rw [hi] at hlN1
              rw [hTl0] at hlN1
              cases hlN1
            · constructor
              · rw [hkeep, upd_other _ _ hi]
                exact MUpB_child hmu hchT hlN1
              · intro hmf
                rw [updateNodeB_modified, modified_withChildren] at hmf
                rw [hkeep, upd_other _ _ hi]
                refine ⟨(MUpB_clean hmu hchT hlN1 hmf).1, ?_,
                  (MUpB_clean hmu hchT hlN1 hmf).2.2⟩
                simp only [updateNodeB_payload]
                rw [if_neg (by simp [hi]), payload_withChildren]
                exact (MUpB_clean hmu hchT hlN1 hmf).2.1
          split
          · exact hUmu
          · refine MUpB_succ_intro ?_
            intro blkU hchU i hl
            rw [children_withModified] at hchU
            rw [leaf_withModified] at hl
            obtain ⟨blkN1, hchN1, hkeep, hlN1⟩ := updateNodeB_slot_keep hchU hl
            rw [children_withChildren] at hchN1
            obtain rfl : upd blkT 0 P = blkN1 := Option.some.inj hchN1
            rw [leaf_withChildren] at hlN1
            by_cases hi : i = 0
            · rw [hi] at hlN1
              rw [hTl0] at hlN1
              cases hlN1
            · constructor
              · rw [hkeep, upd_other _ _ hi]
                exact MUpB_child hmu hchT hlN1
              · intro hmf
                rw [modified_withModified, upd_other _ _ hi, updateNodeB_modified,
                  modified_withChildren] at hmf
                rw [hkeep, upd_other _ _ hi]
                refine ⟨(MUpB_clean hmu hchT hlN1 hmf).1, ?_,
                  (MUpB_clean hmu hchT hlN1 hmf).2.2⟩
                rw [payload_withModified]
                simp only [updateNodeB_payload]
                rw [if_neg (by simp [hi]), payload_withChildren]
                exact (MUpB_clean hmu hchT hlN1 hmf).2.1
        · rw [if_neg hdm]
          refine MUpB_succ_intro ?_
          intro blkI hchI i hl
          rw [children_withChildren] at hchI
          obtain rfl : upd blkT 0 P = blkI := Option.some.inj hchI
          rw [leaf_withChildren] at hl
          by_cases hi : i = 0
          · rw [hi] at hl
            rw [hTl0] at hl
            cases hl
          · refine ⟨?_, fun hmf => ?_⟩
            · rw [upd_other _ _ hi]
              exact MUpB_child hmu hchT hl
            · rw [modified_withChildren] at hmf
              rw [upd_other _ _ hi, payload_withChildren]
              exact MUpB_clean hmu hchT hl hmf

/-- The root-entry `propagateModified` with `keep_modified = false` and the
depth inside `max_depth` leaves a fully cleared, fully aggregated tree. -/
theorem propModEntry_false_clean {α : Type} (H : Hooks α) (d0 : α) (autoP : Bool)
    (T : NodeB α) (depth maxD : Nat) (hw : WFs T) (hmu : MUpB H depth T)
    (hroot : RootSlots T) (hd2 : 2 ≤ depth) (hdm : depth ≤ maxD) :
    CleanB depth (propModEntry H d0 autoP T 0 depth false maxD) ∧
    AggB H depth (propModEntry H d0 autoP T 0 depth false maxD) := by
  obtain ⟨d2, rfl⟩ : ∃ k, depth = k + 2 := ⟨depth - 2, by omega⟩
  rw [propModEntry_eq]
  by_cases hm0 : T.modified 0 = false
  · rw [if_pos hm0]
    constructor
    · refine CleanB_succ_intro ?_ ?_
      · intro i
        by_cases hi : i = 0
        · rw [hi]
          exact hm0
        · exact (hroot i hi).1
      · intro blk hch i hl
        by_cases hi : i = 0
        · subst hi
          exact (MUpB_clean hmu hch hl hm0).1
        · rw [(hroot i hi).2] at hl
          cases hl
    · refine AggB_succ_intro ?_
      intro blk hch i hl
      by_cases hi : i = 0
      · subst hi
        exact ⟨(MUpB_clean hmu hch hl hm0).2.1, (MUpB_clean hmu hch hl hm0).2.2⟩
      · rw [(hroot i hi).2] at hl
        cases hl
  · rw [if_neg hm0, if_neg (show ¬ d2 + 2 = 1 by omega),
      if_pos (show d2 + 2 ≤ maxD by omega), if_neg Bool.false_ne_true]
    rcases hchT : T.children with _ | blkT
    · rw [setChildAt_of_none hchT]
      constructor
      · refine CleanB_succ_intro ?_ ?_
        · intro i
          rw [modified_withModified]
          by_cases hi : i = 0
          · rw [hi, upd_same]
          · rw [upd_other _ _ hi, updateNodeB_modified]
            exact (hroot i hi).1
        · intro blkR hchR i hl
          rw [children_withModified] at hchR
          rw [leaf_withModified] at hl
          obtain ⟨blkn, hchn, _, _⟩ := updateNodeB_slot_keep hchR hl
          rw [hchT] at hchn
          cases hchn
      · refine AggB_succ_intro ?_
        intro blkR hchR i hl
        rw [children_withModified] at hchR
        rw [leaf_withModified] at hl
        obtain ⟨blkn, hchn, _, _⟩ := updateNodeB_slot_keep hchR hl
        rw [hchT] at hchn
        cases hchn
    · set P := propModN H d0 autoP false maxD (d2 + 2 - 1) (childAt d0 T 0) with hP
      have hN1 : setChildAt T 0 P = T.withChildren (some (upd blkT 0 P)) :=
        setChildAt_of_children hchT 0 P
      rw [hN1]
      rcases hTl0 : T.leaf 0 with _ | _
      · obtain ⟨hPc, hPa⟩ : CleanB (d2 + 1) P ∧ AggB H (d2 + 1) P := by
          rw [hP, childAt_of_children d0 hchT]
          exact propModN_false_clean H d0 autoP maxD d2 (blkT 0)
            (WFs_children_some hw hchT 0) (MUpB_child hmu hchT hTl0) (by omega)
        constructor
        · refine CleanB_succ_intro ?_ ?_
          · intro i
            rw [modified_withModified]
            by_cases hi : i = 0
            · rw [hi, upd_same]
            · rw [upd_other _ _ hi, updateNodeB_modified, modified_withChildren]
              exact (hroot i hi).1
          · intro blkR hchR i hl
            rw [children_withModified] at hchR
            rw [leaf_withModified] at hl
            obtain ⟨blkN1, hchN1, hkeep, hlN1⟩ := updateNodeB_slot_keep hchR hl
            rw [children_withChildren] at hchN1
            obtain rfl : upd blkT 0 P = blkN1 := Option.some.inj hchN1
            rw [leaf_withChildren] at hlN1
            by_cases hi : i = 0
            · subst hi
              rw [hkeep, upd_same]
              exact hPc
            · rw [(hroot i hi).2] at hlN1
              cases hlN1
        · refine AggB_succ_intro ?_
          intro blkR hchR i hl
          rw [children_withModified] at hchR
          rw [leaf_withModified] at hl
          obtain ⟨blkN1, hchN1, hkeep, hlN1⟩ := updateNodeB_slot_keep hchR hl
          rw [children_withChildren] at hchN1
          obtain rfl : upd blkT 0 P = blkN1 := Option.some.inj hchN1
          rw [leaf_withChildren] at hlN1
          by_cases hi : i = 0
          · subst hi
            refine ⟨?_, by rw [hkeep, upd_same]; exact hPa⟩
            rw [payload_withModified]
            simp only [updateNodeB_payload]
            rw [if_pos (show ((0 : Fin 8) == 0) = true by decide),
              childAt_of_children d0 (children_withChildren T _), upd_same, hkeep,
              upd_same]
          · rw [(hroot i hi).2] at hlN1
            cases hlN1
      · constructor
        · refine CleanB_succ_intro ?_ ?_
          · intro i
            rw [modified_withModified]
            by_cases hi : i = 0
            · rw [hi, upd_same]
            · rw [upd_other _ _ hi, updateNodeB_modified, modified_withChildren]
              exact (hroot i hi).1
          · intro blkR hchR i hl
            rw [children_withModified] at hchR
            rw [leaf_withModified] at hl
            obtain ⟨blkN1, hchN1, hkeep, hlN1⟩ := updateNodeB_slot_keep hchR hl
            rw [leaf_withChildren] at hlN1
            by_cases hi : i = 0
            · rw [hi, hTl0] at hlN1
              cases hlN1
            · rw [(hroot i hi).2] at hlN1
              cases hlN1
        · refine AggB_succ_intro ?_
          intro blkR hchR i hl
          rw [children_withModified] at hchR
          rw [leaf_withModified] at hl
          obtain ⟨blkN1, hchN1, hkeep, hlN1⟩ := updateNodeB_slot_keep hchR hl
          rw [leaf_withChildren] at hlN1
          by_cases hi : i = 0
          · rw [hi, hTl0] at hlN1
            cases hlN1
          · rw [(hroot i hi).2] at hlN1
            cases hlN1

/-- Every reachable map satisfies the propagation invariant, and its root block
uses only slot 0. -/
theorem reachable_invariant {α : Type} {H : Hooks α} {d0 : α} {autoP : Bool}
    {dl : Nat} {T : NodeB α} (hr : Reachable H d0 autoP dl T) (hdl : 3 ≤ dl) :
    MUpB H (dl - 1) T ∧ RootSlots T := by
  induction hr with
  | fresh => exact ⟨MUpB_none H (dl - 1) (defaultNode_children d0), RootSlots_default d0⟩
  | applyStep T c f f2 prop hrT hc ih =>
    obtain ⟨hmu, hroot⟩ := ih
    have hw := WFs_reachable hrT
    unfold applyCode
    by_cases hg : dl - 1 < c.depth
    · rw [if_pos hg]
      exact ⟨hmu, hroot⟩
    · rw [if_neg hg]
      show MUpB H (dl - 1) (if prop then propagateRoot H d0 autoP dl false 22
          (applyA H d0 f f2 (codeIdxF c) c.depth (dl - 1) T)
        else applyA H d0 f f2 (codeIdxF c) c.depth (dl - 1) T) ∧
        RootSlots (if prop then propagateRoot H d0 autoP dl false 22
          (applyA H d0 f f2 (codeIdxF c) c.depth (dl - 1) T)
        else applyA H d0 f f2 (codeIdxF c) c.depth (dl - 1) T)
      obtain ⟨dd, hdd⟩ : ∃ k, dl - 1 = k + 1 := ⟨dl - 2, by omega⟩
      have hidx : codeIdxF c (dl - 1) = 0 := codeIdxF_root_zero c (dl - 1) hc
      have hT1mu : MUpB H (dl - 1)
          (applyA H d0 f f2 (codeIdxF c) c.depth (dl - 1) T) :=
        applyA_mup H d0 f f2 (codeIdxF c) c.depth (dl - 1) T hw hmu
      have hT1root : RootSlots
          (applyA H d0 f f2 (codeIdxF c) c.depth (dl - 1) T) := by
        rw [hdd]
        refine applyA_rootslots H d0 f f2 (codeIdxF c) c.depth dd T hroot ?_
        rw [← hdd]
        exact hidx
      have hwT1 : WFs (applyA H d0 f f2 (codeIdxF c) c.depth (dl - 1) T) :=
        WFs_applyA H d0 f f2 (codeIdxF c) c.depth (dl - 1) T hw
      by_cases hp : prop = true
      · rw [if_pos hp]
        unfold propagateRoot
        exact ⟨propModEntry_mup H d0 autoP _ (dl - 1) 22 false hwT1 hT1mu (by omega),
          propModEntry_rootslots H d0 autoP _ (dl - 1) 22 false hT1root⟩
      · rw [if_neg hp]
        exact ⟨hT1mu, hT1root⟩
  | propStep T keep maxD hrT ih =>
    obtain ⟨hmu, hroot⟩ := ih
    unfold propagateRoot
    exact ⟨propModEntry_mup H d0 autoP T (dl - 1) maxD keep (WFs_reachable hrT) hmu
        (by omega),
      propModEntry_rootslots H d0 autoP T (dl - 1) maxD keep hroot⟩

/-- In the total model - where the entry's null dereference (`propEntryNullDeref`)
is continued benignly by `childAt` / `setChildAt` - `propagateModified(false)`
with the default `max_depth` leaves every reachable map with every modified bit
0 along every root path and every inner slot above the leaf level aggregated.
On reachable states that do not meet the dereference condition this is the
program's behaviour; on the state of `C3_propagate_entry_null_deref` the
program crashes instead, so this is not a confirmation of claim C3. -/
theorem propagateRoot_false_clears_and_aggregates {α : Type} {H : Hooks α} {d0 : α}
    {autoP : Bool} {dl : Nat} {T : NodeB α} (hr : Reachable H d0 autoP dl T)
    (hdl : 3 ≤ dl) (hdl22 : dl ≤ 22) (p : List (Fin 8)) (B : NodeB α)
    (hB : blockAt (propagateRoot H d0 autoP dl false 22 T) p = some B)
    (hlen : p.length ≤ dl - 1) :
    (∀ i, B.modified i = false) ∧
    (p.length < dl - 1 → ∀ i, B.leaf i = false →
      B.payload i = H.updateH (childAt d0 B i).payload) := by
  obtain ⟨hmu, hroot⟩ := reachable_invariant hr hdl
  have hw := WFs_reachable hr
  obtain ⟨hc, ha⟩ := propModEntry_false_clean H d0 autoP T (dl - 1) 22 hw hmu hroot
    (by omega) (by omega)
  have hwE : WFs (propagateRoot H d0 autoP dl false 22 T) :=
    WFs_propModEntry H d0 autoP T hw 0 (dl - 1) false 22
  exact ⟨CleanB_blockAt p (dl - 1) _ B hc hB hlen,
    fun hlt i hl => AggB_blockAt H d0 p (dl - 1) _ B ha hwE hB hlt i hl⟩

/-- The null-dereference condition of the 5-argument `propagateModified`
(octree_base.h lines 4036-4063): past the `modified[index]` early return (line
4039) the `1 != depth` branch immediately evaluates `innerChild(node, index)`
(lines 4049-4051), and `updateNode` (line 4058) reads the same block - both
through the slot's shared child-block pointer, a null dereference exactly when
that pointer is null. -/
def propEntryNullDeref {α : Type} (n : NodeB α) (index : Fin 8) (depth : Nat) :
    Bool :=
  n.modified index && decide (depth ≠ 1) && ! n.children.isSome

/-- The reachable 3-level map after a single `apply` at the root-depth code 0:
`apply` takes its leaf-slot branch at the root, so the root slot becomes a
modified leaf while its child pointer stays null. -/
def exMap2 : NodeB Nat :=
  (applyCode natHooks 0 true 3 (Code.ofRaw 0 2) (fun _ => 7) (fun p => p) false
    (defaultNode 0)).1

/-- C3: the claimed postcondition is not delivered on every reachable state,
because `propagateModified`'s entry dereferences a null child block on one: on
the reachable map obtained from a fresh 3-level map by a single `apply` at the
root-depth code, the root slot is modified (`modified[0] == 1`), is a leaf
(`leaf[0] == 1`) and has no child storage, and the entry's only guard is
`modified[index]` - so `propagateModified(keep_modified = false)` meets the
dereference condition (octree_base.h lines 4049-4051 and 4058) instead of
producing a cleared, aggregated post-state. -/
theorem C3_propagate_entry_null_deref :
    Reachable natHooks 0 true 3 exMap2 ∧
      exMap2.modified 0 = true ∧ exMap2.leaf 0 = true ∧
      exMap2.children.isSome = false ∧
      propEntryNullDeref exMap2 0 (3 - 1) = true :=
  ⟨show Reachable natHooks 0 true 3 exMap2 from
      Reachable.applyStep (defaultNode 0) (Code.ofRaw 0 2) (fun _ => 7)
        (fun p => p) false Reachable.fresh (by decide),
    by decide, by decide, by decide, by decide⟩

end UfoMap
